import Mathlib

/-!
Verification of the query-range algebra in db/queryutil.h: the FieldBound /
FieldInterval / FieldRange / FieldRangeSet / FieldRangeVector data model and
the operations the specification describes.  BSON element values are modelled
by an opaque totally ordered value type with MIN_KEY and MAX_KEY sentinels and
an integer payload for ordinary values; woCompare is the three-way comparison
of that order (field names are excluded throughout, matching the
woCompare(..., false) calls in the source).
-/

set_option maxHeartbeats 1000000

/-- The document value model: MIN_KEY below everything, MAX_KEY above
everything, and ordinary values represented by integers.  This realizes the
opaque ordered value model the source manipulates through BSONElement. -/
inductive BSONElement : Type
  | minKey : BSONElement
  | intV : Int → BSONElement
  | maxKey : BSONElement
deriving DecidableEq, Repr, Inhabited

/-- Order embedding of the value model into a standard linearly ordered type:
MIN_KEY maps to bottom, MAX_KEY to top. -/
def BSONElement.embed : BSONElement → WithBot (WithTop Int)
  | .minKey => ⊥
  | .intV n => some (some n)
  | .maxKey => some none

instance : LinearOrder BSONElement :=
  LinearOrder.lift' BSONElement.embed (by
    intro a b h
    cases a <;> cases b <;>
      first
        | rfl
        | exact Option.noConfusion h
        | exact Option.noConfusion (Option.some.inj h)
        | exact congrArg BSONElement.intV (Option.some.inj (Option.some.inj h)))

/-- Three-way comparison of values, modelling BSONElement::woCompare with
field names excluded: negative, zero or positive according to the order. -/
def BSONElement.woCompare (a b : BSONElement) : Int :=
  if a < b then -1 else if b < a then 1 else 0

/-- One side of an interval of valid BSONElements: a value and a flag telling
whether the interval includes the value (struct FieldBound). -/
structure FieldBound where
  bound : BSONElement
  inclusive : Bool
deriving DecidableEq, Repr, Inhabited

/-- FieldBound::flipInclusive: negate the inclusive flag.  Note it does not
touch any containing interval's equality cache. -/
def FieldBound.flipInclusive (b : FieldBound) : FieldBound :=
  { b with inclusive := !b.inclusive }

/-- A closed interval of a lower and an upper FieldBound, carrying the mutable
tri-state equality cache (_cachedEquality: -1 unknown, 0 false, 1 true).  The
default constructor initializes the cache to -1. -/
structure FieldInterval where
  lower : FieldBound
  upper : FieldBound
  cachedEquality : Int
deriving DecidableEq, Repr

instance : Inhabited FieldInterval :=
  ⟨⟨⟨.minKey, true⟩, ⟨.minKey, true⟩, -1⟩⟩

/-- FieldInterval::strictValid: the interval can contain some element, i.e.
lower below upper, or equal endpoint values with both bounds inclusive. -/
def FieldInterval.strictValid (i : FieldInterval) : Bool :=
  i.lower.bound.woCompare i.upper.bound < 0 ||
    (i.lower.bound.woCompare i.upper.bound = 0 && i.lower.inclusive && i.upper.inclusive)

/-- FieldInterval::equality with its cache: returns the boolean answer and the
interval as left behind by the call (the mutable cache may be filled in).  The
cached branch returns true for any nonzero stored value. -/
def FieldInterval.equality (i : FieldInterval) : Bool × FieldInterval :=
  if i.cachedEquality = -1 then
    let v : Bool :=
      i.lower.inclusive && i.upper.inclusive && i.lower.bound.woCompare i.upper.bound = 0
    (v, { i with cachedEquality := if v then 1 else 0 })
  else (decide (i.cachedEquality ≠ 0), i)

/-- Membership of a value above a lower bound. -/
def FieldBound.lowAdmits (b : FieldBound) (v : BSONElement) : Prop :=
  b.bound < v ∨ (b.bound = v ∧ b.inclusive = true)

/-- Membership of a value below an upper bound. -/
def FieldBound.upAdmits (b : FieldBound) (v : BSONElement) : Prop :=
  v < b.bound ∨ (v = b.bound ∧ b.inclusive = true)

instance (b : FieldBound) (v : BSONElement) : Decidable (b.lowAdmits v) :=
  inferInstanceAs (Decidable (b.bound < v ∨ (b.bound = v ∧ b.inclusive = true)))

instance (b : FieldBound) (v : BSONElement) : Decidable (b.upAdmits v) :=
  inferInstanceAs (Decidable (v < b.bound ∨ (v = b.bound ∧ b.inclusive = true)))

/-- A value lies in a FieldInterval when it is admitted by both bounds. -/
def FieldInterval.mem (v : BSONElement) (i : FieldInterval) : Prop :=
  i.lower.lowAdmits v ∧ i.upper.upAdmits v

instance (v : BSONElement) (i : FieldInterval) : Decidable (i.mem v) :=
  inferInstanceAs (Decidable (i.lower.lowAdmits v ∧ i.upper.upAdmits v))

/-- An ordered list of FieldIntervals constraining one field (class
FieldRange), with the owned-buffer list and the special-index tag. -/
structure FieldRange where
  intervals : List FieldInterval
  objData : List String
  special : String
deriving DecidableEq, Repr, Inhabited

/-- A value is in a FieldRange when some component interval contains it. -/
def FieldRange.mem (v : BSONElement) (r : FieldRange) : Prop :=
  ∃ i ∈ r.intervals, i.mem v

instance (v : BSONElement) (r : FieldRange) : Decidable (r.mem v) :=
  inferInstanceAs (Decidable (∃ i ∈ r.intervals, i.mem v))

/-- FieldRange::empty: no intervals. -/
def FieldRange.empty (r : FieldRange) : Bool := r.intervals.isEmpty

/-- FieldRange::makeEmpty: clear the interval list. -/
def FieldRange.makeEmpty (r : FieldRange) : FieldRange :=
  { r with intervals := [] }

/-- FieldRange::min: lower bound value of the first interval.  The source
asserts nonemptiness; on an empty list the Inhabited default stands in for the
undefined C++ access. -/
def FieldRange.min (r : FieldRange) : BSONElement :=
  r.intervals.headI.lower.bound

/-- FieldRange::max: upper bound value of the last interval (assert nonempty
in the source, default on empty as for min). -/
def FieldRange.max (r : FieldRange) : BSONElement :=
  (r.intervals.getLastD default).upper.bound

/-- FieldRange::minInclusive. -/
def FieldRange.minInclusive (r : FieldRange) : Bool :=
  r.intervals.headI.lower.inclusive

/-- FieldRange::maxInclusive. -/
def FieldRange.maxInclusive (r : FieldRange) : Bool :=
  (r.intervals.getLastD default).upper.inclusive

/-- FieldRange::equality: nonempty, min equals max under woCompare, and both
extreme bounds inclusive. -/
def FieldRange.equality (r : FieldRange) : Bool :=
  !r.intervals.isEmpty &&
    r.min.woCompare r.max = 0 &&
    r.maxInclusive &&
    r.minInclusive

/-- FieldRange::nontrivial: nonempty, and not a single interval whose extreme
values compare equal to the minKey and maxKey sentinels. -/
def FieldRange.nontrivial (r : FieldRange) : Bool :=
  !r.intervals.isEmpty &&
    (r.intervals.length ≠ 1 ||
      BSONElement.minKey.woCompare r.min ≠ 0 ||
      BSONElement.maxKey.woCompare r.max ≠ 0)

/-- FieldRange::setExclusiveBounds: make every component bound noninclusive.
The equality caches of the intervals are left untouched, exactly as in the
source. -/
def FieldRange.setExclusiveBounds (r : FieldRange) : FieldRange :=
  { r with intervals := r.intervals.map fun i =>
      { i with lower := { i.lower with inclusive := false },
               upper := { i.upper with inclusive := false } } }

/-- The interval produced for one source interval by FieldRange::reverse: the
two bounds swap roles wholesale (value and inclusive flag move together) and
the freshly constructed FieldInterval has an unknown equality cache. -/
def FieldInterval.swapBounds (i : FieldInterval) : FieldInterval :=
  ⟨i.upper, i.lower, -1⟩

/-- FieldRange::reverse: asserts the special tag is empty (modelled as the
none result), then emits the intervals in reverse order with bounds swapped;
the receiving range gets this range's objData and keeps an empty special
tag (the receiver is always freshly default-constructed at the call sites). -/
def FieldRange.reverse (r : FieldRange) : Option FieldRange :=
  if r.special = "" then
    some ⟨r.intervals.reverse.map FieldInterval.swapBounds, r.objData, ""⟩
  else none

/-- Modelled from the spec: FieldRange::operator<= is implemented in
queryutil.cpp, which is not among this repository's source files.  Per section
4.C of the spec the lower bound x is at or below the lower bound y when its
value is smaller, or the values tie and x is inclusive or y is exclusive. -/
def FieldBound.lowerLe (x y : FieldBound) : Bool :=
  x.bound < y.bound || (x.bound = y.bound && (x.inclusive || !y.inclusive))

/-- Modelled from the spec (see FieldBound.lowerLe): the upper bound x is at
or above the upper bound y when its value is larger, or the values tie and x
is inclusive or y is exclusive. -/
def FieldBound.upperGe (x y : FieldBound) : Bool :=
  y.bound < x.bound || (x.bound = y.bound && (x.inclusive || !y.inclusive))

/-- Modelled from the spec: interval j fully contains interval i when j's
lower bound is at or below i's and j's upper bound is at or above i's. -/
def FieldInterval.contains (j i : FieldInterval) : Bool :=
  j.lower.lowerLe i.lower && j.upper.upperGe i.upper

/-- Modelled from the spec: FieldRange::operator<= (subset test, implemented
in the missing queryutil.cpp) is true iff for every interval of this range
there exists an interval of the other that fully contains it. -/
def FieldRange.le (r s : FieldRange) : Bool :=
  r.intervals.all fun i => s.intervals.any fun j => j.contains i

/-- The smaller of two upper bounds: the one with the smaller value; at equal
values exclusivity wins (an exclusive upper bound admits less). -/
def upperMinB (x y : FieldBound) : FieldBound :=
  if x.bound < y.bound then x
  else if y.bound < x.bound then y
  else ⟨x.bound, x.inclusive && y.inclusive⟩

/-- The larger of two lower bounds: the one with the larger value; at equal
values exclusivity wins (an exclusive lower bound admits less). -/
def lowerMaxB (x y : FieldBound) : FieldBound :=
  if x.bound < y.bound then y
  else if y.bound < x.bound then x
  else ⟨x.bound, x.inclusive && y.inclusive⟩

/-- Modelled from the spec: one step of FieldRange::operator-= (implemented in
the missing queryutil.cpp), removing the other interval j from the interval i.
Splitting is allowed and expected: the remainder is the part of i below j's
lower bound together with the part of i above j's upper bound, with strictly
invalid pieces dropped (section 4.C: results are re-normalized and strictly
invalid intervals dropped). -/
def FieldInterval.minus (i j : FieldInterval) : List FieldInterval :=
  [⟨i.lower, upperMinB i.upper j.lower.flipInclusive, -1⟩,
   ⟨lowerMaxB i.lower j.upper.flipInclusive, i.upper, -1⟩].filter
    fun p => p.strictValid

/-- Modelled from the spec: FieldRange::operator-= (implemented in the missing
queryutil.cpp) removes the other range interval by interval; finalization
appends the other's backing buffers to objData. -/
def FieldRange.sub (r s : FieldRange) : FieldRange :=
  ⟨s.intervals.foldl (fun acc j => acc.flatMap fun i => i.minus j) r.intervals,
   r.objData ++ s.objData, r.special⟩

/-- Modelled from the spec: FieldRangeSet::trivialRange() is implemented in
the missing queryutil.cpp; per section 5 and the glossary it is the
process-wide singleton universal range, the single interval from MIN_KEY to
MAX_KEY, both inclusive, initialized once and never mutated. -/
def trivialRange : FieldRange :=
  ⟨[⟨⟨.minKey, true⟩, ⟨.maxKey, true⟩, -1⟩], [], ""⟩

/-- A set of FieldRanges determined from the constraints of a query (class
FieldRangeSet).  The std::map from field name to FieldRange is modelled as an
association list sorted strictly by key. -/
structure FieldRangeSet where
  ranges : List (String × FieldRange)
  ns : String
  queries : List String
deriving DecidableEq, Repr

/-- Boolean check that adjacent keys are strictly increasing. -/
def sortedKeysB : List (String × FieldRange) → Bool
  | [] => true
  | [_] => true
  | p :: q :: t => decide (p.1 < q.1) && sortedKeysB (q :: t)

/-- The std::map key invariant: keys strictly increasing. -/
def rangesSorted (l : List (String × FieldRange)) : Prop :=
  sortedKeysB l = true

/-- FieldRangeSet::range (const): the range for a field, or the trivial range
singleton when the field is absent from the map. -/
def FieldRangeSet.range (s : FieldRangeSet) (f : String) : FieldRange :=
  match s.ranges.lookup f with
  | some r => r
  | none => trivialRange

/-- FieldRangeSet::hasRange. -/
def FieldRangeSet.hasRange (s : FieldRangeSet) (f : String) : Bool :=
  (s.ranges.lookup f).isSome

/-- FieldRangeSet::matchPossible: no contained range is empty. -/
def FieldRangeSet.matchPossible (s : FieldRangeSet) : Bool :=
  s.ranges.all fun p => !p.2.empty

/-- A document, seen as an assignment of a value to every field name, is in a
FieldRangeSet when each constrained field's value lies in its range (absent
fields are unconstrained). -/
def FieldRangeSet.memDoc (d : String → BSONElement) (s : FieldRangeSet) : Prop :=
  ∀ p ∈ s.ranges, p.2.mem (d p.1)

/-- Outcome of the scan loop inside FieldRangeSet::operator-=. -/
inductive SubDecision where
  | unchanged
  | makeEmptyAll
  | subtractAt (key : String)
deriving DecidableEq, Repr

/-- The scan loop of FieldRangeSet::operator-=: walk both sorted maps;
while fewer than two unincluded fields have been seen, compare keys; on a
shared key test the subset relation and count a failure as unincluded,
remembering its key; a key present only in the other map means nothing can be
done; at the end, emptiness of the whole set (zero unincluded), a single-field
subtraction (one unincluded), or no change. -/
def frsSubScan : List (String × FieldRange) → List (String × FieldRange) →
    Nat → String → SubDecision
  | _, [], n, key =>
    if 2 ≤ n then .unchanged else if n = 0 then .makeEmptyAll else .subtractAt key
  | [], _ :: _, _, _ => .unchanged
  | (fi, ri) :: is, (fj, rj) :: js, n, key =>
    if 2 ≤ n then .unchanged
    else if fi = fj then
      if ri.le rj then frsSubScan is js n key
      else frsSubScan is js (n + 1) fi
    else if fi < fj then frsSubScan is ((fj, rj) :: js) n key
    else .unchanged

/-- FieldRangeSet::operator-=: act on the decision of the scan loop.  In the
single-field case the source updates the map entry in place with the
field-level subtraction, using the other map's entry at that key (present
whenever this branch is reached), and appends the other's query buffers. -/
def FieldRangeSet.sub (a b : FieldRangeSet) : FieldRangeSet :=
  match frsSubScan a.ranges b.ranges 0 "" with
  | .unchanged => a
  | .makeEmptyAll => { a with ranges := a.ranges.map fun p => (p.1, p.2.makeEmpty) }
  | .subtractAt k =>
      { a with
        ranges := a.ranges.map fun p =>
          if p.1 = k then (p.1, p.2.sub ((b.ranges.lookup p.1).getD trivialRange))
          else p,
        queries := a.queries ++ b.queries }

/-- The fields of the first map shared with the second on which the subset
test fails: the unincluded fields of FieldRangeSet::operator-=. -/
def unincList (A B : List (String × FieldRange)) : List (String × FieldRange) :=
  A.filter fun p =>
    match B.lookup p.1 with
    | some rb => !p.2.le rb
    | none => false

/-- Failure modes of the FieldRangeVector constructor: the per-field
assertion that a reversed range has an empty special tag, the per-field
assertion that the projected range is nonempty, and the combinatorial-limit
uassert. -/
inductive CtorErr where
  | assertSpecialNonempty
  | assertEmptyRange
  | uassertFail (code : Nat) (msg : String)
deriving DecidableEq, Repr

/-- An ordered list of field ranges projected onto an index key pattern
(class FieldRangeVector). -/
structure FieldRangeVector where
  ranges : List FieldRange
  keyPattern : List (String × Int)
  direction : Int
  queries : List String
deriving DecidableEq, Repr

/-- The effective scan direction test of the constructor: the sign of the key
direction times the sign of the traversal direction is positive (zero key
directions count as forward, as the source casts e.number() with 0.0 for
non-numeric values and tests number >= 0). -/
def frvForward (num direction : Int) : Bool :=
  decide (0 < (if 0 ≤ num then (1 : Int) else -1) * (if 0 ≤ direction then (1 : Int) else -1))

/-- The loop of the FieldRangeVector constructor: for each key pattern field
push the set's range, or its reverse when the effective direction is
backward (the reverse call asserts an empty special tag), then assert the
pushed range is nonempty. -/
def frvBuildRanges (frs : FieldRangeSet) (direction : Int) :
    List (String × Int) → Except CtorErr (List FieldRange)
  | [] => .ok []
  | (f, num) :: rest =>
    match (if frvForward num direction then some (frs.range f)
           else (frs.range f).reverse) with
    | none => .error .assertSpecialNonempty
    | some r =>
      if r.intervals.isEmpty then .error .assertEmptyRange
      else
        match frvBuildRanges frs direction rest with
        | .error e => .error e
        | .ok rs => .ok (r :: rs)

/-- FieldRangeVector::size: the product over the projected ranges of their
interval counts (a long long in the source; interval counts are modelled as
exact integers). -/
def FieldRangeVector.size (v : FieldRangeVector) : Int :=
  v.ranges.foldl (fun acc r => acc * (r.intervals.length : Int)) 1

/-- The FieldRangeVector constructor: build the projected ranges, store the
normalized direction and the owning buffers, then uassert error 13385 when
size() reaches 1,000,000. -/
def frvConstruct (frs : FieldRangeSet) (keyPattern : List (String × Int))
    (direction : Int) : Except CtorErr FieldRangeVector :=
  match frvBuildRanges frs direction keyPattern with
  | .error e => .error e
  | .ok rs =>
    let v : FieldRangeVector :=
      ⟨rs, keyPattern, if 0 ≤ direction then 1 else -1, frs.queries⟩
    if v.size < 1000000 then .ok v
    else .error (.uassertFail 13385
        "combinatorial limit of $in partitioning of result set exceeded")

/-- FieldRangeVector::startKey: the lower bound value of each range's first
interval, concatenated positionally. -/
def FieldRangeVector.startKey (v : FieldRangeVector) : List BSONElement :=
  v.ranges.map fun r => r.intervals.headI.lower.bound

/-- FieldRangeVector::endKey: the upper bound value of each range's last
interval, concatenated positionally. -/
def FieldRangeVector.endKey (v : FieldRangeVector) : List BSONElement :=
  v.ranges.map fun r => (r.intervals.getLastD default).upper.bound

/-- The interval counts the iterator steps through, one per key field. -/
def FieldRangeVector.radices (v : FieldRangeVector) : List Nat :=
  v.ranges.map fun r => r.intervals.length

/-- The backward scan of Iterator::advance (no arguments): find the rightmost
position whose index is not yet at its field's last interval.  none means no
position can advance; some gives the new index list after incrementing that
position and zeroing everything to its right. -/
def odoAdv : List Nat → List Int → Option (List Int)
  | _, [] => none
  | [], _ => none
  | r :: rs, x :: xs =>
    match odoAdv rs xs with
    | some xs2 => some (x :: xs2)
    | none =>
      if (r : Int) - 1 ≤ x then none
      else some ((x + 1) :: xs.map fun _ => 0)

/-- Iterator::advance (no arguments) on the index list: advance the odometer,
or, when no position can advance, set the first position to its field's
interval count, the dead state that makes ok() false. -/
def iterAdvanceList (rad : List Nat) (is : List Int) : List Int :=
  match odoAdv rad is with
  | some is2 => is2
  | none =>
    match is, rad with
    | _ :: xs, r :: _ => (r : Int) :: xs
    | _, _ => is

/-- Iterator::ok: the first position index is below the first field's
interval count. -/
def iterOkList (rad : List Nat) (is : List Int) : Bool :=
  match is, rad with
  | x :: _, r :: _ => decide (x < (r : Int))
  | _, _ => false

/-- Iterator::advance on a FieldRangeVector's interval counts. -/
def FieldRangeVector.iterAdvance (v : FieldRangeVector) (is : List Int) : List Int :=
  iterAdvanceList v.radices is

/-- Iterator::ok on a FieldRangeVector's interval counts. -/
def FieldRangeVector.iterOk (v : FieldRangeVector) (is : List Int) : Bool :=
  iterOkList v.radices is

/-- The all-zero position list the iteration starts from. -/
def FieldRangeVector.iterStart (v : FieldRangeVector) : List Int :=
  v.ranges.map fun _ => 0

/-- The state after n parameterless advance calls from the all-zero start. -/
def FieldRangeVector.iterSeq (v : FieldRangeVector) (n : Nat) : List Int :=
  (fun s => v.iterAdvance s)^[n] v.iterStart

/-- Product of a list of interval counts, as an integer. -/
def prodZ : List Nat → Int
  | [] => 1
  | r :: rs => (r : Int) * prodZ rs

/-- The mixed-radix numeric value of a position list: the leftmost position
is the most significant digit. -/
def odoToNum : List Nat → List Int → Int
  | _ :: rs, x :: xs => x * prodZ rs + odoToNum rs xs
  | _, _ => 0

/-- A position list is valid for the interval counts when it has the same
length and every position is in range. -/
def odoValid (rad : List Nat) (is : List Int) : Prop :=
  List.Forall₂ (fun (r : Nat) (x : Int) => 0 ≤ x ∧ x < (r : Int)) rad is

/-- The last enumerated combination: every position at its field's last
interval. -/
def maxState (rad : List Nat) : List Int :=
  rad.map fun r : Nat => (r : Int) - 1

/-- Separation of consecutive intervals in a normalized FieldRange: the first
ends strictly below the second, or they touch at one value with both touching
bounds exclusive (otherwise they would have been merged). -/
def intervalSep (i j : FieldInterval) : Prop :=
  i.upper.bound < j.lower.bound ∨
    (i.upper.bound = j.lower.bound ∧ i.upper.inclusive = false ∧ j.lower.inclusive = false)

instance (i j : FieldInterval) : Decidable (intervalSep i j) :=
  inferInstanceAs (Decidable (i.upper.bound < j.lower.bound ∨
    (i.upper.bound = j.lower.bound ∧ i.upper.inclusive = false ∧ j.lower.inclusive = false)))

/-- Boolean check that adjacent intervals are separated. -/
def chainSepB : List FieldInterval → Bool
  | [] => true
  | [_] => true
  | i :: j :: t => decide (intervalSep i j) && chainSepB (j :: t)

/-- The normalization invariant of a FieldRange (spec section 3): intervals
sorted, pairwise disjoint, not adjacent-and-mergeable, each strictly valid. -/
def FieldRange.wellFormed (r : FieldRange) : Prop :=
  (∀ i ∈ r.intervals, i.strictValid = true) ∧ chainSepB r.intervals = true

instance (r : FieldRange) : Decidable r.wellFormed :=
  inferInstanceAs (Decidable ((∀ i ∈ r.intervals, i.strictValid = true) ∧
    chainSepB r.intervals = true))

/-- The relation between a key pattern entry and the range the constructor
pushes for it: nonempty, and either the set's range (forward) or its
reverse (backward). -/
def frvFieldRel (frs : FieldRangeSet) (dir : Int) (p : String × Int)
    (r : FieldRange) : Prop :=
  r.intervals ≠ [] ∧
    ((frvForward p.2 dir = true ∧ r = frs.range p.1) ∨
     (frvForward p.2 dir = false ∧ (frs.range p.1).reverse = some r))

theorem woCompare_eq_zero_iff (a b : BSONElement) : a.woCompare b = 0 ↔ a = b := by
  unfold BSONElement.woCompare
  split
  · next h => simp [ne_of_lt h]
  · split
    · next h => simp [(ne_of_lt h).symm]
    · next h1 h2 => simp [le_antisymm (le_of_not_lt h2) (le_of_not_lt h1)]

theorem woCompare_neg_iff (a b : BSONElement) : a.woCompare b < 0 ↔ a < b := by
  unfold BSONElement.woCompare
  rcases lt_trichotomy a b with h | h | h
  · rw [if_pos h]; norm_num [h]
  · subst h; rw [if_neg (lt_irrefl a), if_neg (lt_irrefl a)]; norm_num
  · rw [if_neg (asymm h), if_pos h]; norm_num [asymm h]

theorem minKey_le (v : BSONElement) : BSONElement.minKey ≤ v := by
  have h : (⊥ : WithBot (WithTop Int)) ≤ BSONElement.embed v := bot_le
  exact h

theorem le_maxKey (v : BSONElement) : v ≤ BSONElement.maxKey := by
  cases v with
  | minKey =>
      have h : (⊥ : WithBot (WithTop Int)) ≤ BSONElement.embed .maxKey := bot_le
      exact h
  | maxKey => exact le_refl _
  | intV n =>
      have h1 : (n : WithTop Int) ≤ (⊤ : WithTop Int) := le_top
      have h : ((n : WithTop Int) : WithBot (WithTop Int)) ≤
          ((⊤ : WithTop Int) : WithBot (WithTop Int)) := WithBot.coe_le_coe.mpr h1
      exact h

theorem chainSepB_iff : ∀ l : List FieldInterval,
    chainSepB l = true ↔ l.Chain' intervalSep := by
  intro l
  match l with
  | [] => simp [chainSepB]
  | [i] => simp [chainSepB]
  | i :: j :: t =>
      rw [List.chain'_cons, ← chainSepB_iff (j :: t)]
      simp [chainSepB]

theorem strictValid_true_iff (i : FieldInterval) :
    i.strictValid = true ↔
      i.lower.bound < i.upper.bound ∨
        (i.lower.bound = i.upper.bound ∧
          i.lower.inclusive = true ∧ i.upper.inclusive = true) := by
  unfold FieldInterval.strictValid
  simp only [Bool.or_eq_true, Bool.and_eq_true, decide_eq_true_eq,
    woCompare_neg_iff, woCompare_eq_zero_iff]
  tauto

theorem valid_lower_le_upper {i : FieldInterval} (h : i.strictValid = true) :
    i.lower.bound ≤ i.upper.bound := by
  rcases (strictValid_true_iff i).mp h with h1 | ⟨h1, -⟩
  · exact le_of_lt h1
  · exact le_of_eq h1

theorem sep_upper_le_lower {i j : FieldInterval} (h : intervalSep i j) :
    i.upper.bound ≤ j.lower.bound := by
  rcases h with h1 | ⟨h1, -⟩
  · exact le_of_lt h1
  · exact le_of_eq h1

/-- In a normalized interval chain, the head's lower bound value is at most
the last interval's upper bound value. -/
theorem chain_lower_le_last_upper :
    ∀ (l : List FieldInterval) (i z : FieldInterval),
      (∀ x ∈ i :: l, x.strictValid = true) → List.Chain' intervalSep (i :: l) →
      (i :: l).getLast? = some z → i.lower.bound ≤ z.upper.bound := by
  intro l
  induction l with
  | nil =>
      intro i z hv _ hz
      simp only [List.getLast?_singleton, Option.some.injEq] at hz
      subst hz
      exact valid_lower_le_upper (hv i (by simp))
  | cons j t ih =>
      intro i z hv hc hz
      have hsep : intervalSep i j := (List.chain'_cons.mp hc).1
      have hrest : List.Chain' intervalSep (j :: t) := (List.chain'_cons.mp hc).2
      have hz2 : (j :: t).getLast? = some z := by
        rwa [List.getLast?_cons_cons] at hz
      have h2 := ih j z (fun x hx => hv x (by simp at hx ⊢; tauto)) hrest hz2
      exact le_trans (valid_lower_le_upper (hv i (by simp)))
        (le_trans (sep_upper_le_lower hsep) h2)

/-- In a normalized chain of at least two intervals, the head's lower bound
value is strictly below the last interval's upper bound value. -/
theorem chain_lower_lt_last_upper
    {i j z : FieldInterval} {t : List FieldInterval}
    (hv : ∀ x ∈ i :: j :: t, x.strictValid = true)
    (hc : List.Chain' intervalSep (i :: j :: t))
    (hz : (j :: t).getLast? = some z) :
    i.lower.bound < z.upper.bound := by
  have hsep : intervalSep i j := (List.chain'_cons.mp hc).1
  have hrest : List.Chain' intervalSep (j :: t) := (List.chain'_cons.mp hc).2
  have hij : i.lower.bound < j.lower.bound := by
    rcases hsep with h1 | ⟨h1, h2, -⟩
    · exact lt_of_le_of_lt (valid_lower_le_upper (hv i (by simp))) h1
    · rcases (strictValid_true_iff i).mp (hv i (by simp)) with h3 | ⟨-, -, h4⟩
      · exact h1 ▸ h3
      · rw [h4] at h2; exact absurd h2 (by simp)
  have h2 := chain_lower_le_last_upper t j z
    (fun x hx => hv x (by simp at hx ⊢; tauto)) hrest hz
  exact lt_of_lt_of_le hij h2

/-- C6 counterexample: the empty (unsatisfiable) range is not the single
universal interval, yet nontrivial() returns false on it, refuting the
claimed equivalence at this input. -/
theorem claim_C6_counterexample :
    FieldRange.nontrivial ⟨[], [], ""⟩ = false ∧
    (⟨[], [], ""⟩ : FieldRange).intervals ≠
      [⟨⟨.minKey, true⟩, ⟨.maxKey, true⟩, -1⟩] := by decide

/-- C6 (amended): nontrivial() returns true iff the range is nonempty and is
not a single interval whose endpoint values are MIN_KEY and MAX_KEY; in
particular an empty range is not nontrivial. -/
theorem claim_C6 (r : FieldRange) :
    r.nontrivial = true ↔
      r.intervals ≠ [] ∧
        ¬∃ i, r.intervals = [i] ∧
          i.lower.bound = BSONElement.minKey ∧ i.upper.bound = BSONElement.maxKey := by
  unfold FieldRange.nontrivial FieldRange.min FieldRange.max
  cases hr : r.intervals with
  | nil => simp
  | cons a t =>
      cases t with
      | nil =>
          by_cases h1 : a.lower.bound = BSONElement.minKey
          · by_cases h2 : a.upper.bound = BSONElement.maxKey
            · simp [List.headI, List.getLastD, woCompare_eq_zero_iff, h1, h2]
            · simp [List.headI, List.getLastD, woCompare_eq_zero_iff, h1, h2, Ne.symm h2]
          · by_cases h2 : a.upper.bound = BSONElement.maxKey
            · simp [List.headI, List.getLastD, woCompare_eq_zero_iff, h1, h2, Ne.symm h1]
            · simp [List.headI, List.getLastD, woCompare_eq_zero_iff, h1, h2,
                Ne.symm h1, Ne.symm h2]
      | cons b t2 => simp [List.headI]

/-- C5: in a normalized FieldRange, equality() returns true iff the range is
a single interval with equal endpoint values and both bounds inclusive. -/
theorem claim_C5 (r : FieldRange) (h : r.wellFormed) :
    r.equality = true ↔
      ∃ i, r.intervals = [i] ∧ i.lower.bound = i.upper.bound ∧
        i.lower.inclusive = true ∧ i.upper.inclusive = true := by
  obtain ⟨hv, hcb⟩ := h
  have hc := (chainSepB_iff _).mp hcb
  unfold FieldRange.equality FieldRange.min FieldRange.max
    FieldRange.minInclusive FieldRange.maxInclusive
  cases hr : r.intervals with
  | nil => simp
  | cons a t =>
      rw [hr] at hv hc
      cases t with
      | nil =>
          simp [List.headI, List.getLastD, woCompare_eq_zero_iff]
          tauto
      | cons b t2 =>
          obtain ⟨z, hz⟩ : ∃ z, (b :: t2).getLast? = some z := by
            cases hgl : (b :: t2).getLast? with
            | some z => exact ⟨z, rfl⟩
            | none => simp at hgl
          have hlt := chain_lower_lt_last_upper hv hc hz
          have hne : a.lower.bound ≠ z.upper.bound := ne_of_lt hlt
          rw [List.getLastD_eq_getLast?, List.getLast?_cons_cons, hz]
          simp [List.headI, woCompare_eq_zero_iff, hne]

/-- C5 witness: a concrete single-point range is an equality range. -/
theorem claim_C5_witness :
    FieldRange.equality ⟨[⟨⟨.intV 5, true⟩, ⟨.intV 5, true⟩, -1⟩], [], ""⟩ = true :=
  (claim_C5 _ (by decide)).mpr ⟨_, rfl, rfl, rfl, rfl⟩

/-- C3: on a range whose special tag is empty, reverse emits the intervals in
the opposite order with their lower and upper bounds swapped verbatim (each
bound keeps its inclusivity flag), filling fresh equality caches; reversing
twice restores the original intervals bound-for-bound; and reverse on a range
with a nonempty special tag fails its assertion. -/
theorem claim_C3 (r : FieldRange) (h : r.special = "") :
    (∃ r1, r.reverse = some r1 ∧
      r1.intervals = (r.intervals.map FieldInterval.swapBounds).reverse ∧
      r1.objData = r.objData ∧ r1.special = "" ∧
      (∀ i ∈ r1.intervals, i.cachedEquality = -1) ∧
      ∃ r2, r1.reverse = some r2 ∧
        r2.intervals.map (fun i => (i.lower, i.upper)) =
          r.intervals.map (fun i => (i.lower, i.upper)) ∧
        r2.objData = r.objData ∧ r2.special = r.special) ∧
    (∀ s : FieldRange, s.special ≠ "" → s.reverse = none) := by
  constructor
  · refine ⟨⟨(r.intervals.map FieldInterval.swapBounds).reverse, r.objData, ""⟩,
      ?_, rfl, rfl, rfl, ?_, ?_⟩
    · unfold FieldRange.reverse
      rw [if_pos h, List.map_reverse]
    · intro i hi
      rw [List.mem_reverse, List.mem_map] at hi
      obtain ⟨j, -, hj⟩ := hi
      rw [← hj]; rfl
    · refine ⟨⟨((r.intervals.map FieldInterval.swapBounds).reverse).reverse.map
          FieldInterval.swapBounds, r.objData, ""⟩, ?_, ?_, rfl, h.symm⟩
      · unfold FieldRange.reverse
        rw [if_pos rfl]
      · rw [List.reverse_reverse, List.map_map, List.map_map]
        exact List.map_congr_left fun a _ => rfl
  · intro s hs
    unfold FieldRange.reverse
    rw [if_neg hs]

/-- C3 witness: reversing a concrete two-interval range. -/
theorem claim_C3_witness :
    ∃ r1, FieldRange.reverse
        ⟨[⟨⟨.intV 1, true⟩, ⟨.intV 2, false⟩, -1⟩,
          ⟨⟨.intV 5, false⟩, ⟨.intV 7, true⟩, -1⟩], ["q"], ""⟩ = some r1 ∧
      r1.intervals =
        [⟨⟨.intV 7, true⟩, ⟨.intV 5, false⟩, -1⟩,
         ⟨⟨.intV 2, false⟩, ⟨.intV 1, true⟩, -1⟩] := by
  obtain ⟨⟨r1, h1, h2, -⟩, -⟩ := claim_C3
    ⟨[⟨⟨.intV 1, true⟩, ⟨.intV 2, false⟩, -1⟩,
      ⟨⟨.intV 5, false⟩, ⟨.intV 7, true⟩, -1⟩], ["q"], ""⟩ rfl
  exact ⟨r1, h1, h2.trans (by decide)⟩

/-- C4 fails on the code: on the interval from 5 to 5 with both bounds
inclusive, calling equality() caches true; FieldRange::setExclusiveBounds then
makes both bounds exclusive without clearing the cache, and equality() still
answers true although the interval is no longer an equality (both bounds are
exclusive), i.e. the cache serves a stale answer after mutation. -/
theorem claim_C4 :
    ((FieldRange.setExclusiveBounds
        ⟨[(FieldInterval.equality ⟨⟨.intV 5, true⟩, ⟨.intV 5, true⟩, -1⟩).2],
          [], ""⟩).intervals.headI.equality).1 = true ∧
    (FieldRange.setExclusiveBounds
        ⟨[(FieldInterval.equality ⟨⟨.intV 5, true⟩, ⟨.intV 5, true⟩, -1⟩).2],
          [], ""⟩).intervals.headI.lower.inclusive = false ∧
    (FieldRange.setExclusiveBounds
        ⟨[(FieldInterval.equality ⟨⟨.intV 5, true⟩, ⟨.intV 5, true⟩, -1⟩).2],
          [], ""⟩).intervals.headI.upper.inclusive = false := by decide

/-- C8: a field absent from the map resolves to the trivial-range singleton,
which is the universal range from MIN_KEY to MAX_KEY inclusive and contains
every value; the set subtraction operation resolves absent fields to the very
same singleton value (in this value-semantics embedding the singleton is a
constant that no modelled operation can alter). -/
theorem claim_C8 (s : FieldRangeSet) (f : String) (h : s.ranges.lookup f = none) :
    s.range f = trivialRange ∧
    trivialRange.intervals = [⟨⟨.minKey, true⟩, ⟨.maxKey, true⟩, -1⟩] ∧
    (∀ v : BSONElement, trivialRange.mem v) ∧
    (∀ b : FieldRangeSet, (s.sub b).ranges.lookup f = none →
      (s.sub b).range f = trivialRange) := by
  refine ⟨?_, rfl, ?_, ?_⟩
  · unfold FieldRangeSet.range
    rw [h]
  · intro v
    refine ⟨⟨⟨.minKey, true⟩, ⟨.maxKey, true⟩, -1⟩, by simp [trivialRange], ?_, ?_⟩
    · rcases lt_or_eq_of_le (minKey_le v) with h1 | h1
      · exact Or.inl h1
      · exact Or.inr ⟨h1, rfl⟩
    · rcases lt_or_eq_of_le (le_maxKey v) with h1 | h1
      · exact Or.inl h1
      · exact Or.inr ⟨h1, rfl⟩
  · intro b hb
    unfold FieldRangeSet.range
    rw [hb]

/-- C8 witness: lookup of an absent field on a concrete set. -/
theorem claim_C8_witness :
    FieldRangeSet.range ⟨[("a", trivialRange)], "t.c", []⟩ "b" = trivialRange :=
  (claim_C8 _ "b" (by decide)).1

theorem reverse_some_intervals {r r1 : FieldRange} (h : r.reverse = some r1) :
    r1.intervals = r.intervals.reverse.map FieldInterval.swapBounds ∧
      r.special = "" := by
  unfold FieldRange.reverse at h
  by_cases hs : r.special = ""
  · rw [if_pos hs] at h
    exact ⟨(Option.some.inj h).symm ▸ rfl, hs⟩
  · rw [if_neg hs] at h
    exact absurd h (by simp)

theorem reverse_intervals_length {r r1 : FieldRange} (h : r.reverse = some r1) :
    r1.intervals.length = r.intervals.length := by
  rw [(reverse_some_intervals h).1]
  simp

theorem frvBuildRanges_ok {frs : FieldRangeSet} {dir : Int} :
    ∀ {kp : List (String × Int)} {rs : List FieldRange},
      frvBuildRanges frs dir kp = .ok rs →
      List.Forall₂ (frvFieldRel frs dir) kp rs := by
  intro kp
  induction kp with
  | nil =>
      intro rs h
      unfold frvBuildRanges at h
      rw [← Except.ok.inj h]
      exact List.Forall₂.nil
  | cons p rest ih =>
      intro rs h
      obtain ⟨f, num⟩ := p
      unfold frvBuildRanges at h
      split at h
      · exact absurd h (by simp)
      · next r heq =>
          split at h
          · exact absurd h (by simp)
          · next hne =>
              split at h
              · exact absurd h (by simp)
              · next rs2 hrec =>
                  rw [← Except.ok.inj h]
                  refine List.Forall₂.cons ⟨?_, ?_⟩ (ih hrec)
                  · intro hnil
                    rw [hnil] at hne
                    simp at hne
                  · by_cases hf : frvForward num dir
                    · rw [if_pos hf] at heq
                      exact Or.inl ⟨hf, (Option.some.inj heq).symm⟩
                    · rw [if_neg hf] at heq
                      exact Or.inr ⟨by simp [hf], heq⟩

theorem frvBuildRanges_lengths {frs : FieldRangeSet} {dir : Int}
    {kp : List (String × Int)} {rs : List FieldRange}
    (h : List.Forall₂ (frvFieldRel frs dir) kp rs) :
    rs.map (fun r => r.intervals.length) =
      kp.map fun p => (frs.range p.1).intervals.length := by
  induction h with
  | nil => rfl
  | cons hpr hrest ih =>
      simp only [List.map_cons, ih]
      congr 1
      rcases hpr with ⟨-, ⟨-, rfl⟩ | ⟨-, hrev⟩⟩
      · rfl
      · exact reverse_intervals_length hrev

theorem frvBuildRanges_mem_nonempty {frs : FieldRangeSet} {dir : Int}
    {kp : List (String × Int)} {rs : List FieldRange}
    (h : List.Forall₂ (frvFieldRel frs dir) kp rs)
    {p : String × Int} (hp : p ∈ kp) : (frs.range p.1).intervals ≠ [] := by
  induction h with
  | nil => cases hp
  | cons hpr hrest ih =>
      rcases List.mem_cons.mp hp with rfl | hp2
      · rcases hpr with ⟨hne, ⟨-, rfl⟩ | ⟨-, hrev⟩⟩
        · exact hne
        · intro hnil
          have h2 := reverse_intervals_length hrev
          rw [hnil] at h2
          simp at h2
          exact hne h2
      · exact ih hp2

theorem frvBuildRanges_error {frs : FieldRangeSet} {dir : Int} :
    ∀ {kp : List (String × Int)} {e : CtorErr},
      frvBuildRanges frs dir kp = .error e →
      e = .assertSpecialNonempty ∨ e = .assertEmptyRange := by
  intro kp
  induction kp with
  | nil =>
      intro e h
      unfold frvBuildRanges at h
      exact absurd h (by simp)
  | cons p rest ih =>
      intro e h
      obtain ⟨f, num⟩ := p
      unfold frvBuildRanges at h
      split at h
      · exact Or.inl (Except.error.inj h).symm
      · split at h
        · exact Or.inr (Except.error.inj h).symm
        · split at h
          · next e2 hrec =>
              rw [← Except.error.inj h]
              exact ih hrec
          · exact absurd h (by simp)

theorem frvBuildRanges_total {frs : FieldRangeSet} {dir : Int} :
    ∀ {kp : List (String × Int)},
      (∀ p ∈ kp, (frs.range p.1).special = "") →
      (∀ p ∈ kp, (frs.range p.1).intervals ≠ []) →
      ∃ rs, frvBuildRanges frs dir kp = .ok rs := by
  intro kp
  induction kp with
  | nil => exact fun _ _ => ⟨[], rfl⟩
  | cons p rest ih =>
      intro hsp hne
      obtain ⟨f, num⟩ := p
      obtain ⟨rs2, hrec⟩ := ih (fun q hq => hsp q (List.mem_cons_of_mem _ hq))
        (fun q hq => hne q (List.mem_cons_of_mem _ hq))
      have hs := hsp (f, num) (List.mem_cons_self _ _)
      have hn := hne (f, num) (List.mem_cons_self _ _)
      unfold frvBuildRanges
      by_cases hf : frvForward num dir
      · rw [if_pos hf]
        refine ⟨(frs.range f) :: rs2, ?_⟩
        dsimp only
        rw [if_neg (by simp only [List.isEmpty_iff]; exact hn), hrec]
      · rw [if_neg hf]
        have hrev : (frs.range f).reverse =
            some ⟨(frs.range f).intervals.reverse.map FieldInterval.swapBounds,
              (frs.range f).objData, ""⟩ := by
          unfold FieldRange.reverse
          rw [if_pos hs]
        rw [hrev]
        refine ⟨⟨(frs.range f).intervals.reverse.map FieldInterval.swapBounds,
          (frs.range f).objData, ""⟩ :: rs2, ?_⟩
        dsimp only
        rw [if_neg (by simp only [List.isEmpty_iff]; simp [hn]), hrec]

theorem foldl_mul_lengths :
    ∀ (l : List FieldRange) (a : Int),
      l.foldl (fun acc r => acc * (r.intervals.length : Int)) a =
        a * prodZ (l.map fun r => r.intervals.length) := by
  intro l
  induction l with
  | nil => intro a; simp [prodZ]
  | cons r t ih =>
      intro a
      simp only [List.foldl_cons, List.map_cons, prodZ, ih]
      ring

theorem size_eq_prodZ (v : FieldRangeVector) :
    v.size = prodZ (v.ranges.map fun r => r.intervals.length) := by
  unfold FieldRangeVector.size
  rw [foldl_mul_lengths, one_mul]

theorem prodZ_eq_zero : ∀ {l : List Nat}, (0 : Nat) ∈ l → prodZ l = 0 := by
  intro l
  induction l with
  | nil => intro h; cases h
  | cons r t ih =>
      intro h
      rcases List.mem_cons.mp h with h1 | h1
      · simp [prodZ, ← h1]
      · simp [prodZ, ih h1]

theorem prodZ_one_le : ∀ {l : List Nat}, (∀ x ∈ l, 1 ≤ x) → 1 ≤ prodZ l := by
  intro l
  induction l with
  | nil => intro _; simp [prodZ]
  | cons r t ih =>
      intro h
      have h1 : (1 : Int) ≤ (r : Int) := by
        have := h r (List.mem_cons_self _ _)
        omega
      have h2 := ih fun x hx => h x (List.mem_cons_of_mem _ hx)
      calc (1 : Int) = 1 * 1 := by ring
        _ ≤ (r : Int) * prodZ t := mul_le_mul h1 h2 (by norm_num) (by omega)

/-- C1: with no special tags on the indexed fields, FieldRangeVector
construction fails with the stable error 13385 and its fixed message exactly
when the product of the per-field interval counts reaches 1,000,000; below
the limit this error is never produced. -/
theorem claim_C1 (frs : FieldRangeSet) (kp : List (String × Int)) (dir : Int)
    (hsp : ∀ p ∈ kp, (frs.range p.1).special = "") :
    frvConstruct frs kp dir = .error (.uassertFail 13385
        "combinatorial limit of $in partitioning of result set exceeded") ↔
      1000000 ≤ prodZ (kp.map fun p => (frs.range p.1).intervals.length) := by
  unfold frvConstruct
  cases hb : frvBuildRanges frs dir kp with
  | error e =>
      dsimp only
      refine iff_of_false ?_ ?_
      · rcases frvBuildRanges_error hb with rfl | rfl <;> simp
      · intro hge
        have hne : ∀ p ∈ kp, (frs.range p.1).intervals ≠ [] := by
          intro p hp hnil
          have h0 : (0 : Nat) ∈ kp.map fun p => (frs.range p.1).intervals.length := by
            rw [List.mem_map]
            exact ⟨p, hp, by rw [hnil]; rfl⟩
          rw [prodZ_eq_zero h0] at hge
          omega
        obtain ⟨rs, hok⟩ := frvBuildRanges_total hsp hne
        rw [hok] at hb
        cases hb
  | ok rs =>
      dsimp only
      set d : Int := if 0 ≤ dir then 1 else -1 with hd
      have hsize : (⟨rs, kp, d, frs.queries⟩ : FieldRangeVector).size =
          prodZ (kp.map fun p => (frs.range p.1).intervals.length) := by
        rw [size_eq_prodZ]
        exact congrArg prodZ (frvBuildRanges_lengths (frvBuildRanges_ok hb))
      split
      · next hlt =>
          refine iff_of_false (by simp) ?_
          rw [hsize] at hlt
          omega
      · next hge =>
          refine iff_of_true rfl ?_
          rw [hsize] at hge
          omega

/-- C1 witness: a two-interval range on a one-field key pattern is far below
the limit, so the combinatorial-limit error is not raised. -/
theorem claim_C1_witness :
    frvConstruct ⟨[("a", ⟨[⟨⟨.intV 1, true⟩, ⟨.intV 1, true⟩, -1⟩,
        ⟨⟨.intV 3, true⟩, ⟨.intV 3, true⟩, -1⟩], [], ""⟩)], "t.c", []⟩
      [("a", 1)] 1 ≠
      .error (.uassertFail 13385
        "combinatorial limit of $in partitioning of result set exceeded") := by
  intro hc
  exact absurd ((claim_C1 _ [("a", 1)] 1 (by decide)).mp hc) (by decide)

theorem frvBuildRanges_no_empty_assert {frs : FieldRangeSet} {dir : Int} :
    ∀ {kp : List (String × Int)},
      (∀ p ∈ kp, (frs.range p.1).intervals ≠ []) →
      frvBuildRanges frs dir kp ≠ .error .assertEmptyRange := by
  intro kp
  induction kp with
  | nil =>
      intro _ h
      unfold frvBuildRanges at h
      exact Except.noConfusion h
  | cons p rest ih =>
      intro hne h
      obtain ⟨f, num⟩ := p
      have hn := hne (f, num) (List.mem_cons_self _ _)
      unfold frvBuildRanges at h
      split at h
      · next heq =>
          exact absurd (Except.error.inj h) (by simp)
      · next r heq =>
          have hrne : r.intervals ≠ [] := by
            by_cases hf : frvForward num dir
            · rw [if_pos hf] at heq
              rw [← Option.some.inj heq]
              exact hn
            · rw [if_neg hf] at heq
              intro hnil
              have h2 := reverse_intervals_length heq
              rw [hnil] at h2
              exact hn (List.length_eq_zero.mp h2.symm)
          split at h
          · next hemp =>
              rw [List.isEmpty_iff] at hemp
              exact hrne hemp
          · split at h
            · next e2 hrec =>
                rw [Except.error.inj h] at hrec
                exact ih (fun q hq => hne q (List.mem_cons_of_mem _ hq)) hrec
            · exact Except.noConfusion h

theorem frvBuildRanges_ranges_nonempty {frs : FieldRangeSet} {dir : Int}
    {kp : List (String × Int)} {rs : List FieldRange}
    (h : List.Forall₂ (frvFieldRel frs dir) kp rs) :
    ∀ r ∈ rs, r.intervals ≠ [] := by
  induction h with
  | nil => intro r hr; cases hr
  | cons hpr hrest ih =>
      intro r hr
      rcases List.mem_cons.mp hr with rfl | hr2
      · exact hpr.1
      · exact ih r hr2

theorem frvConstruct_ok {frs : FieldRangeSet} {kp : List (String × Int)} {dir : Int}
    {v : FieldRangeVector} (h : frvConstruct frs kp dir = .ok v) :
    ∃ rs, frvBuildRanges frs dir kp = .ok rs ∧
      v = ⟨rs, kp, if 0 ≤ dir then 1 else -1, frs.queries⟩ := by
  unfold frvConstruct at h
  cases hb : frvBuildRanges frs dir kp with
  | error e =>
      rw [hb] at h
      exact absurd h (by simp)
  | ok rs =>
      rw [hb] at h
      dsimp only at h
      set d : Int := if 0 ≤ dir then 1 else -1 with hd
      split at h
      · exact ⟨rs, rfl, (Except.ok.inj h).symm⟩
      · exact absurd h (by simp)

/-- C9: if some indexed field's range is empty, FieldRangeVector construction
fails one of the constructor's assertions rather than producing a vector;
when every indexed field's range is nonempty, the nonemptiness assertion is
unreachable and any successfully built vector has size at least 1. -/
theorem claim_C9 (frs : FieldRangeSet) (kp : List (String × Int)) (dir : Int) :
    ((∃ p ∈ kp, (frs.range p.1).intervals = []) →
        frvConstruct frs kp dir = .error .assertEmptyRange ∨
        frvConstruct frs kp dir = .error .assertSpecialNonempty) ∧
    ((∀ p ∈ kp, (frs.range p.1).intervals ≠ []) →
        frvConstruct frs kp dir ≠ .error .assertEmptyRange ∧
        ∀ v, frvConstruct frs kp dir = .ok v → 1 ≤ v.size) := by
  constructor
  · rintro ⟨p, hp, hempty⟩
    unfold frvConstruct
    cases hb : frvBuildRanges frs dir kp with
    | error e =>
        dsimp only
        rcases frvBuildRanges_error hb with rfl | rfl
        · right; rfl
        · left; rfl
    | ok rs =>
        exact absurd hempty (frvBuildRanges_mem_nonempty (frvBuildRanges_ok hb) hp)
  · intro hne
    constructor
    · intro hc
      unfold frvConstruct at hc
      cases hb : frvBuildRanges frs dir kp with
      | error e =>
          rw [hb] at hc
          dsimp only at hc
          have he := Except.error.inj hc
          rw [he] at hb
          exact frvBuildRanges_no_empty_assert hne hb
      | ok rs =>
          rw [hb] at hc
          dsimp only at hc
          set d : Int := if 0 ≤ dir then 1 else -1 with hd
          split at hc <;> simp at hc
    · intro v hv
      obtain ⟨rs, hb, rfl⟩ := frvConstruct_ok hv
      have hall := frvBuildRanges_ranges_nonempty (frvBuildRanges_ok hb)
      rw [size_eq_prodZ]
      refine prodZ_one_le ?_
      intro x hx
      rw [List.mem_map] at hx
      obtain ⟨r, hr, rfl⟩ := hx
      have h1 : r.intervals ≠ [] := hall r hr
      have h2 : 0 < r.intervals.length := List.length_pos.mpr h1
      omega

/-- C9 witness: a set whose only field has an empty range makes construction
fail an assertion. -/
theorem claim_C9_witness :
    frvConstruct ⟨[("a", ⟨[], [], ""⟩)], "t.c", []⟩ [("a", 1)] 1 =
        .error .assertEmptyRange ∨
      frvConstruct ⟨[("a", ⟨[], [], ""⟩)], "t.c", []⟩ [("a", 1)] 1 =
        .error .assertSpecialNonempty :=
  (claim_C9 ⟨[("a", ⟨[], [], ""⟩)], "t.c", []⟩ [("a", 1)] 1).1
    ⟨("a", 1), by decide, by decide⟩

theorem headI_append {α : Type} [Inhabited α] {l : List α} (h : l ≠ []) (l2 : List α) :
    (l ++ l2).headI = l.headI := by
  cases l with
  | nil => exact absurd rfl h
  | cons a t => rfl

theorem getLastD_append_singleton {α : Type} [Inhabited α] :
    ∀ (l : List α) (x d : α), (l ++ [x]).getLastD d = x := by
  intro l
  induction l with
  | nil => intro x d; rfl
  | cons a t ih =>
      intro x d
      rw [List.cons_append, List.getLastD_cons, ih]

theorem getLastD_cons_ne_nil {α : Type} [Inhabited α] {t : List α} (h : t ≠ [])
    (a d : α) : (a :: t).getLastD d = t.getLastD d := by
  cases t with
  | nil => exact absurd rfl h
  | cons b t2 => simp [List.getLastD_cons]

/-- Reversing and swapping a nonempty interval list: the head of the result
is the swapped last interval of the original, and the last of the result is
the swapped head. -/
theorem revmap_bounds :
    ∀ (t : List FieldInterval) (a : FieldInterval),
      (((a :: t).reverse.map FieldInterval.swapBounds).headI =
        ((a :: t).getLastD default).swapBounds) ∧
      (((a :: t).reverse.map FieldInterval.swapBounds).getLastD default =
        a.swapBounds) := by
  intro t
  induction t with
  | nil => intro a; exact ⟨rfl, rfl⟩
  | cons b t2 ih =>
      intro a
      constructor
      · rw [List.reverse_cons, List.map_append, headI_append (by simp) _, (ih b).1,
          getLastD_cons_ne_nil (by simp) a default]
      · rw [List.reverse_cons, List.map_append]
        exact getLastD_append_singleton _ _ _

theorem frvRanges_keys {frs : FieldRangeSet} {dir : Int}
    {kp : List (String × Int)} {rs : List FieldRange}
    (h : List.Forall₂ (frvFieldRel frs dir) kp rs) :
    (rs.map fun r => r.intervals.headI.lower.bound) =
      (kp.map fun p =>
        if frvForward p.2 dir = true then (frs.range p.1).intervals.headI.lower.bound
        else ((frs.range p.1).intervals.getLastD default).upper.bound) ∧
    (rs.map fun r => (r.intervals.getLastD default).upper.bound) =
      (kp.map fun p =>
        if frvForward p.2 dir = true then
          ((frs.range p.1).intervals.getLastD default).upper.bound
        else (frs.range p.1).intervals.headI.lower.bound) := by
  induction h with
  | nil => exact ⟨rfl, rfl⟩
  | cons hpr hrest ih =>
      rename_i p r l1 l2
      obtain ⟨ih1, ih2⟩ := ih
      simp only [List.map_cons, ih1, ih2]
      rcases hpr with ⟨hne, ⟨hf, rfl⟩ | ⟨hf, hrev⟩⟩
      · constructor <;> simp [hf]
      · have hre := (reverse_some_intervals hrev).1
        have horig : (frs.range p.1).intervals ≠ [] := by
          intro hnil
          rw [hre, hnil] at hne
          exact hne rfl
        obtain ⟨a, t, hat⟩ : ∃ a t, (frs.range p.1).intervals = a :: t := by
          cases hcc : (frs.range p.1).intervals with
          | nil => exact absurd hcc horig
          | cons a t => exact ⟨a, t, rfl⟩
        constructor
        · rw [if_neg (by simp [hf])]
          congr 1
          rw [hre, hat, (revmap_bounds t a).1]
          rfl
        · rw [if_neg (by simp [hf])]
          congr 1
          rw [hre, hat, (revmap_bounds t a).2]
          rfl

/-- C7: on a successfully constructed FieldRangeVector, startKey is the
positional concatenation of the lower bound of the first interval of each
projected range (the set's range when the effective direction is forward, its
reverse otherwise) and endKey concatenates the upper bound of each projected
range's last interval; in particular, binding the single range from 1 to 3
(both inclusive) on field a to the index on a with scan direction -1 reverses
the range, making startKey the value 3 and endKey the value 1. -/
theorem claim_C7 (frs : FieldRangeSet) (kp : List (String × Int)) (dir : Int)
    (v : FieldRangeVector) (h : frvConstruct frs kp dir = .ok v) :
    (v.startKey = kp.map fun p =>
        if frvForward p.2 dir = true then (frs.range p.1).intervals.headI.lower.bound
        else ((frs.range p.1).intervals.getLastD default).upper.bound) ∧
    (v.endKey = kp.map fun p =>
        if frvForward p.2 dir = true then
          ((frs.range p.1).intervals.getLastD default).upper.bound
        else (frs.range p.1).intervals.headI.lower.bound) ∧
    (∃ w, frvConstruct
        ⟨[("a", ⟨[⟨⟨.intV 1, true⟩, ⟨.intV 3, true⟩, -1⟩], [], ""⟩)], "t.c", []⟩
        [("a", 1)] (-1) = .ok w ∧
      w.startKey = [.intV 3] ∧ w.endKey = [.intV 1]) := by
  obtain ⟨rs, hb, rfl⟩ := frvConstruct_ok h
  have hk := frvRanges_keys (frvBuildRanges_ok hb)
  refine ⟨hk.1, hk.2, ?_⟩
  exact ⟨⟨[⟨[⟨⟨.intV 3, true⟩, ⟨.intV 1, true⟩, -1⟩], [], ""⟩], [("a", 1)], -1, []⟩,
    rfl, rfl, rfl⟩

/-- C7 witness: a forward one-field vector starts at the range's lower
bound. -/
theorem claim_C7_witness :
    FieldRangeVector.startKey
        ⟨[⟨[⟨⟨.intV 1, true⟩, ⟨.intV 3, true⟩, -1⟩], [], ""⟩], [("a", 1)], 1, []⟩ =
      [.intV 1] := by
  have h := claim_C7
    ⟨[("a", ⟨[⟨⟨.intV 1, true⟩, ⟨.intV 3, true⟩, -1⟩], [], ""⟩)], "t.c", []⟩
    [("a", 1)] 1
    ⟨[⟨[⟨⟨.intV 1, true⟩, ⟨.intV 3, true⟩, -1⟩], [], ""⟩], [("a", 1)], 1, []⟩ rfl
  rw [h.1]
  decide

theorem prodZ_natCast : ∀ l : List Nat, prodZ l = (l.prod : Int) := by
  intro l
  induction l with
  | nil => rfl
  | cons r t ih => simp [prodZ, ih]

theorem prodZ_nonneg : ∀ l : List Nat, 0 ≤ prodZ l := by
  intro l
  induction l with
  | nil => norm_num [prodZ]
  | cons r t ih => exact mul_nonneg (by positivity) ih

theorem odoValid_one_le {rad : List Nat} {is : List Int} (h : odoValid rad is) :
    ∀ r ∈ rad, 1 ≤ r := by
  induction h with
  | nil => intro r hr; cases hr
  | cons hx hrest ih =>
      rename_i r x rs xs
      intro q hq
      obtain ⟨hx1, hx2⟩ := hx
      rcases List.mem_cons.mp hq with rfl | hq2
      · omega
      · exact ih q hq2

theorem odoValid_zeros : ∀ {rad : List Nat}, (∀ r ∈ rad, 1 ≤ r) →
    odoValid rad (rad.map fun _ => (0 : Int)) := by
  intro rad
  induction rad with
  | nil => intro _; exact List.Forall₂.nil
  | cons r t ih =>
      intro h
      have h1 := h r (List.mem_cons_self _ _)
      exact List.Forall₂.cons
        (show (0 : Int) ≤ 0 ∧ (0 : Int) < (r : Int) from ⟨le_refl 0, by omega⟩)
        (ih fun q hq => h q (List.mem_cons_of_mem _ hq))

theorem odoValid_zeros_of_valid {rad : List Nat} {is : List Int}
    (h : odoValid rad is) : odoValid rad (is.map fun _ => (0 : Int)) := by
  induction h with
  | nil => exact List.Forall₂.nil
  | cons hx hrest ih =>
      rename_i r x rs xs
      obtain ⟨hx1, hx2⟩ := hx
      exact List.Forall₂.cons
        (show (0 : Int) ≤ 0 ∧ (0 : Int) < (r : Int) from ⟨le_refl 0, by omega⟩) ih

theorem odoToNum_map_zero {α : Type} : ∀ (rad : List Nat) (is : List α),
    odoToNum rad (is.map fun _ => (0 : Int)) = 0 := by
  intro rad
  induction rad with
  | nil => intro is; rfl
  | cons r t ih =>
      intro is
      cases is with
      | nil => rfl
      | cons x xs =>
          show (0 : Int) * prodZ t + odoToNum t (xs.map fun _ => (0 : Int)) = 0
          rw [ih]
          ring

theorem odoValid_max : ∀ {rad : List Nat}, (∀ r ∈ rad, 1 ≤ r) →
    odoValid rad (maxState rad) := by
  intro rad
  induction rad with
  | nil => intro _; exact List.Forall₂.nil
  | cons r t ih =>
      intro h
      have h1 := h r (List.mem_cons_self _ _)
      exact List.Forall₂.cons
        (show (0 : Int) ≤ (r : Int) - 1 ∧ (r : Int) - 1 < (r : Int) from by
          constructor <;> omega)
        (ih fun q hq => h q (List.mem_cons_of_mem _ hq))

theorem odoToNum_max : ∀ {rad : List Nat}, (∀ r ∈ rad, 1 ≤ r) →
    odoToNum rad (maxState rad) = prodZ rad - 1 := by
  intro rad
  induction rad with
  | nil => intro _; norm_num [odoToNum, maxState, prodZ]
  | cons r t ih =>
      intro h
      have h2 := ih fun q hq => h q (List.mem_cons_of_mem _ hq)
      have hstep : maxState (r :: t) = ((r : Int) - 1) :: maxState t := rfl
      rw [hstep]
      show ((r : Int) - 1) * prodZ t + odoToNum t (maxState t) = prodZ (r :: t) - 1
      rw [h2]
      show ((r : Int) - 1) * prodZ t + (prodZ t - 1) = (r : Int) * prodZ t - 1
      ring

theorem odoToNum_nonneg {rad : List Nat} {is : List Int} (h : odoValid rad is) :
    0 ≤ odoToNum rad is := by
  induction h with
  | nil => norm_num [odoToNum]
  | cons hx hrest ih =>
      rename_i r x rs xs
      obtain ⟨hx1, hx2⟩ := hx
      show 0 ≤ x * prodZ rs + odoToNum rs xs
      have := mul_nonneg hx1 (prodZ_nonneg rs)
      omega

theorem odoToNum_lt_prod {rad : List Nat} {is : List Int} (h : odoValid rad is) :
    odoToNum rad is < prodZ rad := by
  induction h with
  | nil => norm_num [odoToNum, prodZ]
  | cons hx hrest ih =>
      rename_i r x rs xs
      obtain ⟨hx1, hx2⟩ := hx
      show x * prodZ rs + odoToNum rs xs < (r : Int) * prodZ rs
      have hxr : x ≤ (r : Int) - 1 := by omega
      have hP : 0 ≤ prodZ rs := prodZ_nonneg rs
      have h1 : x * prodZ rs ≤ ((r : Int) - 1) * prodZ rs :=
        mul_le_mul_of_nonneg_right hxr hP
      nlinarith [ih]

/-- A strictly larger leading digit dominates the mixed-radix value. -/
theorem odoToNum_head_lt {r : Nat} {rs : List Nat} {x y : Int} {xs ys : List Int}
    (ha : odoValid rs xs) (hb : odoValid rs ys) (hxy : x < y) :
    odoToNum (r :: rs) (x :: xs) < odoToNum (r :: rs) (y :: ys) := by
  show x * prodZ rs + odoToNum rs xs < y * prodZ rs + odoToNum rs ys
  have h1 : odoToNum rs xs < prodZ rs := odoToNum_lt_prod ha
  have h2 : 0 ≤ odoToNum rs ys := odoToNum_nonneg hb
  have h3 : (x + 1) * prodZ rs ≤ y * prodZ rs :=
    mul_le_mul_of_nonneg_right (by omega) (prodZ_nonneg rs)
  nlinarith

theorem odoToNum_inj : ∀ {rad : List Nat} {a b : List Int},
    odoValid rad a → odoValid rad b → odoToNum rad a = odoToNum rad b → a = b := by
  intro rad
  induction rad with
  | nil =>
      intro a b ha hb _
      cases ha; cases hb; rfl
  | cons r rs ih =>
      intro a b ha hb heq
      cases ha with
      | cons hx ha2 =>
          cases hb with
          | cons hy hb2 =>
              rename_i x xs y ys
              obtain ⟨hx1, hx2⟩ := hx
              obtain ⟨hy1, hy2⟩ := hy
              rcases lt_trichotomy x y with hxy | hxy | hxy
              · exact absurd heq
                  (ne_of_lt (odoToNum_head_lt ha2 hb2 hxy))
              · subst hxy
                have heq2 : x * prodZ rs + odoToNum rs xs =
                    x * prodZ rs + odoToNum rs ys := heq
                have : odoToNum rs xs = odoToNum rs ys := by omega
                rw [ih ha2 hb2 this]
              · exact absurd heq.symm
                  (ne_of_lt (odoToNum_head_lt hb2 ha2 hxy))

theorem odoToNum_lex : ∀ {rad : List Nat} {a b : List Int},
    odoValid rad a → odoValid rad b → odoToNum rad a < odoToNum rad b →
    List.Lex (· < ·) a b := by
  intro rad
  induction rad with
  | nil =>
      intro a b ha hb hlt
      cases ha; cases hb
      norm_num [odoToNum] at hlt
  | cons r rs ih =>
      intro a b ha hb hlt
      cases ha with
      | cons hx ha2 =>
          cases hb with
          | cons hy hb2 =>
              rename_i x xs y ys
              obtain ⟨hx1, hx2⟩ := hx
              obtain ⟨hy1, hy2⟩ := hy
              rcases lt_trichotomy x y with hxy | hxy | hxy
              · exact List.Lex.rel hxy
              · subst hxy
                have hlt2 : x * prodZ rs + odoToNum rs xs <
                    x * prodZ rs + odoToNum rs ys := hlt
                have : odoToNum rs xs < odoToNum rs ys := by omega
                exact List.Lex.cons (ih ha2 hb2 this)
              · exact absurd hlt
                  (not_lt_of_gt (odoToNum_head_lt hb2 ha2 hxy))

theorem odoAdv_spec : ∀ {rad : List Nat} {is : List Int}, odoValid rad is →
    (odoAdv rad is = none ↔ is = maxState rad) ∧
    (∀ is2, odoAdv rad is = some is2 →
      odoValid rad is2 ∧ odoToNum rad is2 = odoToNum rad is + 1) := by
  intro rad is h
  induction h with
  | nil =>
      constructor
      · simp [odoAdv, maxState]
      · intro is2 h2
        simp [odoAdv] at h2
  | cons hx hrest ih =>
      rename_i r x rs xs
      obtain ⟨hx1, hx2⟩ := hx
      have hstep : maxState (r :: rs) = ((r : Int) - 1) :: maxState rs := rfl
      constructor
      · show odoAdv (r :: rs) (x :: xs) = none ↔ x :: xs = maxState (r :: rs)
        rw [hstep]
        unfold odoAdv
        cases ha : odoAdv rs xs with
        | some xs2 =>
            refine iff_of_false (by simp) ?_
            intro hmax
            have hxs : xs = maxState rs := (List.cons.inj hmax).2
            rw [ih.1.mpr hxs] at ha
            cases ha
        | none =>
            have hxs : xs = maxState rs := ih.1.mp ha
            dsimp only
            split
            · next hge =>
                refine iff_of_true rfl ?_
                have hxe : x = (r : Int) - 1 := by omega
                rw [hxe, hxs]
            · next hlt =>
                refine iff_of_false (by simp) ?_
                intro hmax
                have hxe : x = (r : Int) - 1 := (List.cons.inj hmax).1
                omega
      · intro is2 h2
        show odoValid (r :: rs) is2 ∧
          odoToNum (r :: rs) is2 = odoToNum (r :: rs) (x :: xs) + 1
        unfold odoAdv at h2
        cases ha : odoAdv rs xs with
        | some xs2 =>
            rw [ha] at h2
            dsimp only at h2
            obtain ⟨hv2, hn2⟩ := ih.2 xs2 ha
            rw [← Option.some.inj h2]
            refine ⟨List.Forall₂.cons
              (show (0 : Int) ≤ x ∧ x < (r : Int) from ⟨hx1, hx2⟩) hv2, ?_⟩
            show x * prodZ rs + odoToNum rs xs2 =
              x * prodZ rs + odoToNum rs xs + 1
            omega
        | none =>
            rw [ha] at h2
            dsimp only at h2
            split at h2
            · exact absurd h2 (by simp)
            · next hlt =>
                have hxs : xs = maxState rs := ih.1.mp ha
                rw [← Option.some.inj h2]
                have hone : ∀ q ∈ rs, 1 ≤ q := odoValid_one_le hrest
                constructor
                · exact List.Forall₂.cons
                    (show (0 : Int) ≤ x + 1 ∧ x + 1 < (r : Int) from by
                      constructor <;> omega)
                    (odoValid_zeros_of_valid hrest)
                · show (x + 1) * prodZ rs + odoToNum rs (xs.map fun _ => (0 : Int)) =
                    x * prodZ rs + odoToNum rs xs + 1
                  rw [odoToNum_map_zero, hxs, odoToNum_max hone]
                  ring

theorem iterAdvance_of_some {rad : List Nat} {is is2 : List Int}
    (h : odoAdv rad is = some is2) : iterAdvanceList rad is = is2 := by
  unfold iterAdvanceList
  rw [h]

theorem iterAdvance_max {r : Nat} {rs : List Nat}
    (hone : ∀ q ∈ r :: rs, 1 ≤ q) :
    iterAdvanceList (r :: rs) (maxState (r :: rs)) = (r : Int) :: maxState rs ∧
    iterAdvanceList (r :: rs) ((r : Int) :: maxState rs) = (r : Int) :: maxState rs ∧
    iterOkList (r :: rs) ((r : Int) :: maxState rs) = false := by
  have hmaxrs : odoAdv rs (maxState rs) = none :=
    (odoAdv_spec (odoValid_max fun q hq => hone q (List.mem_cons_of_mem _ hq))).1.mpr rfl
  refine ⟨?_, ?_, ?_⟩
  · have hnone : odoAdv (r :: rs) (maxState (r :: rs)) = none :=
      (odoAdv_spec (odoValid_max hone)).1.mpr rfl
    unfold iterAdvanceList
    rw [hnone]
    rfl
  · have hnone : odoAdv (r :: rs) ((r : Int) :: maxState rs) = none := by
      unfold odoAdv
      rw [hmaxrs]
      rw [if_pos (by omega)]
    unfold iterAdvanceList
    rw [hnone]
  · unfold iterOkList
    simp

theorem odoSeq_spec (rad : List Nat) (hone : ∀ x ∈ rad, 1 ≤ x) :
    ∀ n : Nat, (n : Int) < prodZ rad →
      odoValid rad ((iterAdvanceList rad)^[n] (rad.map fun _ => (0 : Int))) ∧
      odoToNum rad ((iterAdvanceList rad)^[n] (rad.map fun _ => (0 : Int))) = (n : Int) := by
  intro n
  induction n with
  | zero =>
      intro _
      simp only [Function.iterate_zero, id]
      exact ⟨odoValid_zeros hone, by rw [odoToNum_map_zero]; rfl⟩
  | succ n ih =>
      intro h
      have hn : (n : Int) < prodZ rad := by push_cast at h; omega
      obtain ⟨hv, ht⟩ := ih hn
      rw [Function.iterate_succ_apply']
      set s := (iterAdvanceList rad)^[n] (rad.map fun _ => (0 : Int)) with hs
      have hmax : s ≠ maxState rad := by
        intro he
        rw [he, odoToNum_max hone] at ht
        push_cast at h
        omega
      cases ha : odoAdv rad s with
      | none => exact absurd ((odoAdv_spec hv).1.mp ha) hmax
      | some s2 =>
          rw [iterAdvance_of_some ha]
          obtain ⟨hv2, ht2⟩ := (odoAdv_spec hv).2 s2 ha
          refine ⟨hv2, ?_⟩
          rw [ht2, ht]
          push_cast
          ring

theorem odoSeq_dead (rad : List Nat) (hone : ∀ x ∈ rad, 1 ≤ x) (h0 : rad ≠ []) :
    ∀ m : Nat, rad.prod ≤ m →
      iterOkList rad ((iterAdvanceList rad)^[m] (rad.map fun _ => (0 : Int))) = false := by
  obtain ⟨r, rs, rfl⟩ : ∃ r rs, rad = r :: rs := by
    cases rad with
    | nil => exact absurd rfl h0
    | cons r rs => exact ⟨r, rs, rfl⟩
  have hN1 : 1 ≤ (r :: rs).prod := by
    have h2 := prodZ_one_le hone
    rw [prodZ_natCast] at h2
    exact_mod_cast h2
  have hNc : prodZ (r :: rs) = ((r :: rs).prod : Int) := prodZ_natCast _
  have hA : (iterAdvanceList (r :: rs))^[(r :: rs).prod - 1]
      ((r :: rs).map fun _ => (0 : Int)) = maxState (r :: rs) := by
    have hlt : (((r :: rs).prod - 1 : Nat) : Int) < prodZ (r :: rs) := by
      rw [hNc]
      omega
    have h1 := odoSeq_spec (r :: rs) hone ((r :: rs).prod - 1) hlt
    refine odoToNum_inj h1.1 (odoValid_max hone) ?_
    rw [h1.2, odoToNum_max hone, hNc]
    omega
  have hB : ∀ k : Nat, (iterAdvanceList (r :: rs))^[(r :: rs).prod + k]
      ((r :: rs).map fun _ => (0 : Int)) = (r : Int) :: maxState rs := by
    intro k
    induction k with
    | zero =>
        have hsplit : (r :: rs).prod + 0 = ((r :: rs).prod - 1) + 1 := by omega
        rw [hsplit, Function.iterate_succ_apply', hA]
        exact (iterAdvance_max hone).1
    | succ k ih =>
        have hsplit : (r :: rs).prod + (k + 1) = ((r :: rs).prod + k) + 1 := by omega
        rw [hsplit, Function.iterate_succ_apply', ih]
        exact (iterAdvance_max hone).2.1
  intro m hm
  have hsplit : m = (r :: rs).prod + (m - (r :: rs).prod) := by omega
  rw [hsplit, hB]
  exact (iterAdvance_max hone).2.2

/-- C10: the parameterless Iterator::advance is a mixed-radix odometer.  On a
FieldRangeVector whose fields all have at least one interval, starting from
the all-zero position list, the first size() states enumerate exactly the
valid per-field interval-index combinations, in strictly increasing
lexicographic order with mixed-radix value equal to the step count (so each
combination appears exactly once and every valid combination appears); the
interval counts multiply to size(); and from the size()-th call on, ok() is
false and stays false. -/
theorem claim_C10 (v : FieldRangeVector)
    (h1 : ∀ r ∈ v.ranges, r.intervals ≠ []) (h0 : v.ranges ≠ []) :
    (∀ n : Nat, n < v.radices.prod →
        odoValid v.radices (v.iterSeq n) ∧
        odoToNum v.radices (v.iterSeq n) = (n : Int)) ∧
    (∀ m n : Nat, m < v.radices.prod → n < v.radices.prod → m < n →
        List.Lex (· < ·) (v.iterSeq m) (v.iterSeq n)) ∧
    (∀ m n : Nat, m < v.radices.prod → n < v.radices.prod →
        v.iterSeq m = v.iterSeq n → m = n) ∧
    (∀ s : List Int, odoValid v.radices s →
        ∃ n : Nat, n < v.radices.prod ∧ v.iterSeq n = s) ∧
    ((v.radices.prod : Int) = v.size) ∧
    (∀ m : Nat, v.radices.prod ≤ m → v.iterOk (v.iterSeq m) = false) := by
  have hone : ∀ x ∈ v.radices, 1 ≤ x := by
    intro x hx
    unfold FieldRangeVector.radices at hx
    rw [List.mem_map] at hx
    obtain ⟨r, hr, rfl⟩ := hx
    have := List.length_pos.mpr (h1 r hr)
    omega
  have hrad0 : v.radices ≠ [] := by
    unfold FieldRangeVector.radices
    intro hc
    exact h0 (List.map_eq_nil_iff.mp hc)
  have hbase : v.radices.map (fun _ => (0 : Int)) = v.iterStart := by
    unfold FieldRangeVector.radices FieldRangeVector.iterStart
    rw [List.map_map]
    rfl
  have hseq : ∀ n : Nat, v.iterSeq n =
      (iterAdvanceList v.radices)^[n] (v.radices.map fun _ => (0 : Int)) := by
    intro n
    unfold FieldRangeVector.iterSeq FieldRangeVector.iterAdvance
    rw [hbase]
  have hcast : prodZ v.radices = (v.radices.prod : Int) := prodZ_natCast _
  refine ⟨?_, ?_, ?_, ?_, ?_, ?_⟩
  · intro n hn
    have h2 := odoSeq_spec v.radices hone n (by rw [hcast]; exact_mod_cast hn)
    rw [hseq n]
    exact h2
  · intro m n hm hn hmn
    have hm2 := odoSeq_spec v.radices hone m (by rw [hcast]; exact_mod_cast hm)
    have hn2 := odoSeq_spec v.radices hone n (by rw [hcast]; exact_mod_cast hn)
    rw [hseq m, hseq n]
    exact odoToNum_lex hm2.1 hn2.1 (by rw [hm2.2, hn2.2]; exact_mod_cast hmn)
  · intro m n hm hn he
    have hm2 := odoSeq_spec v.radices hone m (by rw [hcast]; exact_mod_cast hm)
    have hn2 := odoSeq_spec v.radices hone n (by rw [hcast]; exact_mod_cast hn)
    rw [hseq m, hseq n] at he
    have h3 : (m : Int) = (n : Int) := by rw [← hm2.2, ← hn2.2, he]
    exact_mod_cast h3
  · intro s hs
    have hnum0 : 0 ≤ odoToNum v.radices s := odoToNum_nonneg hs
    have hnumlt : odoToNum v.radices s < prodZ v.radices := odoToNum_lt_prod hs
    rw [hcast] at hnumlt
    refine ⟨(odoToNum v.radices s).toNat, by omega, ?_⟩
    have h2 := odoSeq_spec v.radices hone (odoToNum v.radices s).toNat
      (by rw [hcast]; omega)
    rw [hseq]
    refine odoToNum_inj h2.1 hs ?_
    rw [h2.2, Int.toNat_of_nonneg hnum0]
  · rw [size_eq_prodZ, ← hcast]
    rfl
  · intro m hm
    have h2 := odoSeq_dead v.radices hone hrad0 m hm
    unfold FieldRangeVector.iterOk
    rw [hseq m]
    exact h2

/-- C10 witness: a concrete two-field vector with two and three intervals has
six combinations and the first advance state is valid with value 1. -/
theorem claim_C10_witness :
    (odoValid
      (FieldRangeVector.radices
        ⟨[⟨[⟨⟨.intV 1, true⟩, ⟨.intV 1, true⟩, -1⟩,
            ⟨⟨.intV 5, true⟩, ⟨.intV 5, true⟩, -1⟩], [], ""⟩,
          ⟨[⟨⟨.intV 1, true⟩, ⟨.intV 1, true⟩, -1⟩,
            ⟨⟨.intV 2, true⟩, ⟨.intV 2, true⟩, -1⟩,
            ⟨⟨.intV 3, true⟩, ⟨.intV 3, true⟩, -1⟩], [], ""⟩],
          [("a", 1), ("b", 1)], 1, []⟩)
      (FieldRangeVector.iterSeq
        ⟨[⟨[⟨⟨.intV 1, true⟩, ⟨.intV 1, true⟩, -1⟩,
            ⟨⟨.intV 5, true⟩, ⟨.intV 5, true⟩, -1⟩], [], ""⟩,
          ⟨[⟨⟨.intV 1, true⟩, ⟨.intV 1, true⟩, -1⟩,
            ⟨⟨.intV 2, true⟩, ⟨.intV 2, true⟩, -1⟩,
            ⟨⟨.intV 3, true⟩, ⟨.intV 3, true⟩, -1⟩], [], ""⟩],
          [("a", 1), ("b", 1)], 1, []⟩ 1)) ∧
    odoToNum
      (FieldRangeVector.radices
        ⟨[⟨[⟨⟨.intV 1, true⟩, ⟨.intV 1, true⟩, -1⟩,
            ⟨⟨.intV 5, true⟩, ⟨.intV 5, true⟩, -1⟩], [], ""⟩,
          ⟨[⟨⟨.intV 1, true⟩, ⟨.intV 1, true⟩, -1⟩,
            ⟨⟨.intV 2, true⟩, ⟨.intV 2, true⟩, -1⟩,
            ⟨⟨.intV 3, true⟩, ⟨.intV 3, true⟩, -1⟩], [], ""⟩],
          [("a", 1), ("b", 1)], 1, []⟩)
      (FieldRangeVector.iterSeq
        ⟨[⟨[⟨⟨.intV 1, true⟩, ⟨.intV 1, true⟩, -1⟩,
            ⟨⟨.intV 5, true⟩, ⟨.intV 5, true⟩, -1⟩], [], ""⟩,
          ⟨[⟨⟨.intV 1, true⟩, ⟨.intV 1, true⟩, -1⟩,
            ⟨⟨.intV 2, true⟩, ⟨.intV 2, true⟩, -1⟩,
            ⟨⟨.intV 3, true⟩, ⟨.intV 3, true⟩, -1⟩], [], ""⟩],
          [("a", 1), ("b", 1)], 1, []⟩ 1) = 1 :=
  (claim_C10 _ (by decide) (by decide)).1 1 (by decide)

theorem lowerLe_sound {x y : FieldBound} {v : BSONElement}
    (h : x.lowerLe y = true) (hv : y.lowAdmits v) : x.lowAdmits v := by
  unfold FieldBound.lowerLe at h
  unfold FieldBound.lowAdmits at hv ⊢
  simp only [Bool.or_eq_true, Bool.and_eq_true, Bool.not_eq_true',
    decide_eq_true_eq] at h
  rcases h with h1 | ⟨h1, h2⟩
  · rcases hv with hv1 | ⟨hv1, -⟩
    · exact Or.inl (lt_trans h1 hv1)
    · exact Or.inl (hv1 ▸ h1)
  · rcases hv with hv1 | ⟨hv1, hv2⟩
    · exact Or.inl (h1 ▸ hv1)
    · rcases h2 with h2 | h2
      · exact Or.inr ⟨h1.trans hv1, h2⟩
      · rw [hv2] at h2
        cases h2

theorem upperGe_sound {x y : FieldBound} {v : BSONElement}
    (h : x.upperGe y = true) (hv : y.upAdmits v) : x.upAdmits v := by
  unfold FieldBound.upperGe at h
  unfold FieldBound.upAdmits at hv ⊢
  simp only [Bool.or_eq_true, Bool.and_eq_true, Bool.not_eq_true',
    decide_eq_true_eq] at h
  rcases h with h1 | ⟨h1, h2⟩
  · rcases hv with hv1 | ⟨hv1, -⟩
    · exact Or.inl (lt_trans hv1 h1)
    · exact Or.inl (hv1 ▸ h1)
  · rcases hv with hv1 | ⟨hv1, hv2⟩
    · exact Or.inl (h1 ▸ hv1)
    · rcases h2 with h2 | h2
      · exact Or.inr ⟨hv1.trans h1.symm, h2⟩
      · rw [hv2] at h2
        cases h2

theorem contains_sound {j i : FieldInterval} {v : BSONElement}
    (h : j.contains i = true) (hv : i.mem v) : j.mem v := by
  unfold FieldInterval.contains at h
  rw [Bool.and_eq_true] at h
  exact ⟨lowerLe_sound h.1 hv.1, upperGe_sound h.2 hv.2⟩

theorem frLe_sound {r s : FieldRange} (h : r.le s = true) {v : BSONElement}
    (hv : r.mem v) : s.mem v := by
  obtain ⟨i, hi, hvi⟩ := hv
  unfold FieldRange.le at h
  rw [List.all_eq_true] at h
  have h2 := h i hi
  rw [List.any_eq_true] at h2
  obtain ⟨j, hj, hc⟩ := h2
  exact ⟨j, hj, contains_sound hc hvi⟩

theorem mem_strictValid {v : BSONElement} {i : FieldInterval}
    (h : i.mem v) : i.strictValid = true := by
  obtain ⟨h1, h2⟩ := h
  rw [strictValid_true_iff]
  rcases h1 with h1 | ⟨h1, h1i⟩
  · rcases h2 with h2 | ⟨h2, -⟩
    · exact Or.inl (lt_trans h1 h2)
    · exact Or.inl (h2 ▸ h1)
  · rcases h2 with h2 | ⟨h2, h2i⟩
    · exact Or.inl (h1 ▸ h2)
    · exact Or.inr ⟨by rw [h1, h2], h1i, h2i⟩

theorem upperMin_admits {x y : FieldBound} {v : BSONElement}
    (hx : x.upAdmits v) (hy : y.upAdmits v) : (upperMinB x y).upAdmits v := by
  unfold upperMinB
  split
  · exact hx
  · split
    · exact hy
    · next h1 h2 =>
        have hxy : x.bound = y.bound := le_antisymm (le_of_not_lt h2) (le_of_not_lt h1)
        rcases hx with hx1 | ⟨hx1, hx2⟩
        · exact Or.inl hx1
        · rcases hy with hy1 | ⟨hy1, hy2⟩
          · exact Or.inl (hxy ▸ hy1)
          · exact Or.inr ⟨hx1, by simp [hx2, hy2]⟩

theorem lowerMax_admits {x y : FieldBound} {v : BSONElement}
    (hx : x.lowAdmits v) (hy : y.lowAdmits v) : (lowerMaxB x y).lowAdmits v := by
  unfold lowerMaxB
  split
  · exact hy
  · split
    · exact hx
    · next h1 h2 =>
        have hxy : x.bound = y.bound := le_antisymm (le_of_not_lt h2) (le_of_not_lt h1)
        rcases hx with hx1 | ⟨hx1, hx2⟩
        · exact Or.inl hx1
        · rcases hy with hy1 | ⟨hy1, hy2⟩
          · exact Or.inl (hxy.symm ▸ hy1)
          · exact Or.inr ⟨hx1, by simp [hx2, hy2]⟩

theorem flip_lower_as_upper {b : FieldBound} {v : BSONElement}
    (h : ¬ b.lowAdmits v) : b.flipInclusive.upAdmits v := by
  unfold FieldBound.lowAdmits at h
  unfold FieldBound.flipInclusive FieldBound.upAdmits
  rcases lt_trichotomy v b.bound with h1 | h1 | h1
  · exact Or.inl h1
  · refine Or.inr ⟨h1, ?_⟩
    by_cases hb : b.inclusive = true
    · exact absurd (Or.inr ⟨h1.symm, hb⟩) h
    · simp only [Bool.not_eq_true] at hb
      rw [hb]
      rfl
  · exact absurd (Or.inl h1) h

theorem flip_upper_as_lower {b : FieldBound} {v : BSONElement}
    (h : ¬ b.upAdmits v) : b.flipInclusive.lowAdmits v := by
  unfold FieldBound.upAdmits at h
  unfold FieldBound.flipInclusive FieldBound.lowAdmits
  rcases lt_trichotomy b.bound v with h1 | h1 | h1
  · exact Or.inl h1
  · refine Or.inr ⟨h1, ?_⟩
    by_cases hb : b.inclusive = true
    · exact absurd (Or.inr ⟨h1.symm, hb⟩) h
    · simp only [Bool.not_eq_true] at hb
      rw [hb]
      rfl
  · exact absurd (Or.inl h1) h

theorem intvMinus_superset {i j : FieldInterval} {v : BSONElement}
    (hm : i.mem v) (hnj : ¬ j.mem v) :
    ∃ p ∈ i.minus j, p.mem v := by
  unfold FieldInterval.mem at hnj
  rw [not_and_or] at hnj
  obtain ⟨hl, hu⟩ := hm
  rcases hnj with hn | hn
  · have hpv : FieldInterval.mem v
        ⟨i.lower, upperMinB i.upper j.lower.flipInclusive, -1⟩ :=
      ⟨hl, upperMin_admits hu (flip_lower_as_upper hn)⟩
    refine ⟨_, ?_, hpv⟩
    unfold FieldInterval.minus
    rw [List.mem_filter]
    exact ⟨by simp, mem_strictValid hpv⟩
  · have hpv : FieldInterval.mem v
        ⟨lowerMaxB i.lower j.upper.flipInclusive, i.upper, -1⟩ :=
      ⟨lowerMax_admits hl (flip_upper_as_lower hn), hu⟩
    refine ⟨_, ?_, hpv⟩
    unfold FieldInterval.minus
    rw [List.mem_filter]
    exact ⟨by simp, mem_strictValid hpv⟩

theorem foldl_minus_superset {v : BSONElement} :
    ∀ (L acc : List FieldInterval),
      (∀ j ∈ L, ¬ FieldInterval.mem v j) →
      (∃ i ∈ acc, FieldInterval.mem v i) →
      ∃ i ∈ L.foldl (fun acc j => acc.flatMap fun i => i.minus j) acc,
        FieldInterval.mem v i := by
  intro L
  induction L with
  | nil => intro acc _ h; exact h
  | cons j L2 ih =>
      intro acc hnj ⟨i, hi, hvi⟩
      refine ih _ (fun q hq => hnj q (List.mem_cons_of_mem _ hq)) ?_
      obtain ⟨p, hp, hvp⟩ :=
        intvMinus_superset hvi (hnj j (List.mem_cons_self _ _))
      exact ⟨p, List.mem_flatMap.mpr ⟨i, hi, hp⟩, hvp⟩

theorem frSub_superset {r s : FieldRange} {v : BSONElement}
    (hm : r.mem v) (hn : ¬ s.mem v) : (r.sub s).mem v := by
  have hn2 : ∀ j ∈ s.intervals, ¬ FieldInterval.mem v j := by
    intro j hj hc
    exact hn ⟨j, hj, hc⟩
  exact foldl_minus_superset s.intervals r.intervals hn2 hm

theorem sortedKeysB_iff : ∀ l : List (String × FieldRange),
    sortedKeysB l = true ↔ List.Chain' (fun p q => p.1 < q.1) l := by
  intro l
  match l with
  | [] => simp [sortedKeysB]
  | [p] => simp [sortedKeysB]
  | p :: q :: t =>
      rw [List.chain'_cons, ← sortedKeysB_iff (q :: t)]
      simp [sortedKeysB]

theorem lookup_cons_self (a : String) (b : FieldRange)
    (t : List (String × FieldRange)) :
    List.lookup a ((a, b) :: t) = some b := by
  simp [List.lookup]

theorem lookup_cons_ne {k a : String} (h : k ≠ a) (b : FieldRange)
    (t : List (String × FieldRange)) :
    List.lookup k ((a, b) :: t) = List.lookup k t := by
  have hb : (k == a) = false := beq_eq_false_iff_ne.mpr h
  simp [List.lookup, hb]

theorem lookup_some_mem : ∀ {l : List (String × FieldRange)} {k : String}
    {r : FieldRange}, List.lookup k l = some r → (k, r) ∈ l := by
  intro l
  induction l with
  | nil => intro k r h; cases h
  | cons p t ih =>
      intro k r h
      obtain ⟨a, b⟩ := p
      by_cases he : k = a
      · subst he
        rw [lookup_cons_self] at h
        rw [← Option.some.inj h]
        exact List.mem_cons_self _ _
      · rw [lookup_cons_ne he] at h
        exact List.mem_cons_of_mem _ (ih h)

theorem sortedChain_head_lt :
    ∀ {t : List (String × FieldRange)} {p : String × FieldRange},
      List.Chain' (fun x y => x.1 < y.1) (p :: t) → ∀ q ∈ t, p.1 < q.1 := by
  intro t
  induction t with
  | nil => intro p _ q hq; cases hq
  | cons j t2 ih =>
      intro p h q hq
      have h1 := (List.chain'_cons.mp h).1
      have h2 := (List.chain'_cons.mp h).2
      rcases List.mem_cons.mp hq with rfl | hq2
      · exact h1
      · exact lt_trans h1 (ih h2 q hq2)

theorem lookup_none_of_all_ne :
    ∀ {l : List (String × FieldRange)} {k : String},
      (∀ q ∈ l, k ≠ q.1) → List.lookup k l = none := by
  intro l
  induction l with
  | nil => intro k _; rfl
  | cons p t ih =>
      intro k h
      obtain ⟨a, b⟩ := p
      rw [lookup_cons_ne (h (a, b) (List.mem_cons_self _ _))]
      exact ih fun q hq => h q (List.mem_cons_of_mem _ hq)

theorem lookup_eq_some_of_mem :
    ∀ {l : List (String × FieldRange)} {k : String} {r : FieldRange},
      List.Chain' (fun x y => x.1 < y.1) l → (k, r) ∈ l →
      List.lookup k l = some r := by
  intro l
  induction l with
  | nil => intro k r _ h; cases h
  | cons p t ih =>
      intro k r hc hm
      obtain ⟨a, b⟩ := p
      rcases List.mem_cons.mp hm with he | hm2
      · cases he
        exact lookup_cons_self _ _ _
      · have hlt : a < k := sortedChain_head_lt hc (k, r) hm2
        rw [lookup_cons_ne (ne_of_gt hlt)]
        exact ih (List.Chain'.tail hc) hm2

theorem key_unique {l : List (String × FieldRange)}
    (hc : List.Chain' (fun x y => x.1 < y.1) l) {k : String} {x y : FieldRange}
    (h1 : (k, x) ∈ l) (h2 : (k, y) ∈ l) : x = y :=
  Option.some.inj ((lookup_eq_some_of_mem hc h1).symm.trans
    (lookup_eq_some_of_mem hc h2))

theorem unincList_pred_mem {A B : List (String × FieldRange)}
    {p : String × FieldRange} (hp : p ∈ unincList A B) :
    p ∈ A ∧ ∃ rb, B.lookup p.1 = some rb ∧ p.2.le rb = false := by
  unfold unincList at hp
  rw [List.mem_filter] at hp
  obtain ⟨h1, h2⟩ := hp
  refine ⟨h1, ?_⟩
  cases hb : List.lookup p.1 B with
  | none => rw [hb] at h2; simp at h2
  | some rb =>
      rw [hb] at h2
      simp only [Bool.not_eq_true'] at h2
      exact ⟨rb, rfl, h2⟩

theorem unincList_pred_not_mem {A B : List (String × FieldRange)}
    {p : String × FieldRange} (hpA : p ∈ A) (hpn : p ∉ unincList A B)
    {rb : FieldRange} (hb : B.lookup p.1 = some rb) : p.2.le rb = true := by
  by_contra hc
  apply hpn
  unfold unincList
  rw [List.mem_filter]
  refine ⟨hpA, ?_⟩
  have hle : p.2.le rb = false := by
    cases h2 : FieldRange.le p.2 rb
    · rfl
    · exact absurd h2 hc
  rw [hb]
  show (!p.2.le rb) = true
  rw [hle]
  rfl

theorem unincList_cons_some {fa : String} {ra rb : FieldRange}
    {As B : List (String × FieldRange)} (hl : B.lookup fa = some rb) :
    unincList ((fa, ra) :: As) B =
      if ra.le rb = true then unincList As B else (fa, ra) :: unincList As B := by
  unfold unincList
  rw [List.filter_cons]
  have hpred : (match B.lookup (fa, ra).1 with
      | some rb2 => !(fa, ra).2.le rb2
      | none => false) = !ra.le rb := by
    rw [hl]
  rw [hpred]
  cases hle : ra.le rb <;> simp [hle]

theorem unincList_cons_none {fa : String} {ra : FieldRange}
    {As B : List (String × FieldRange)} (hl : B.lookup fa = none) :
    unincList ((fa, ra) :: As) B = unincList As B := by
  unfold unincList
  rw [List.filter_cons]
  have hpred : (match B.lookup (fa, ra).1 with
      | some rb2 => !(fa, ra).2.le rb2
      | none => false) = false := by
    rw [hl]
  rw [hpred]
  simp

theorem unincList_congr_right {As : List (String × FieldRange)} {fb : String}
    {rb : FieldRange} {Bs : List (String × FieldRange)}
    (h : ∀ q ∈ As, q.1 ≠ fb) :
    unincList As ((fb, rb) :: Bs) = unincList As Bs := by
  unfold unincList
  exact List.filter_congr fun q hq => by rw [lookup_cons_ne (h q hq)]

theorem unincList_nil_right : ∀ A : List (String × FieldRange),
    unincList A [] = [] := by
  intro A
  unfold unincList
  induction A with
  | nil => rfl
  | cons p t ih =>
      rw [List.filter_cons]
      have hpred : (match List.lookup p.1 ([] : List (String × FieldRange)) with
          | some rb => !p.2.le rb
          | none => false) = false := rfl
      rw [hpred, if_neg (by simp)]
      exact ih

/-- Characterization of the scan loop of FieldRangeSet::operator-= on sorted
maps: a field of the other map absent from this map means no change; when
every field of the other map is shared, the decision is driven by the count
of unincluded shared fields on top of the fields already counted. -/
theorem frsSubScan_spec :
    ∀ (A B : List (String × FieldRange)) (n : Nat) (key : String),
      List.Chain' (fun p q => p.1 < q.1) A →
      List.Chain' (fun p q => p.1 < q.1) B →
      (2 ≤ n → frsSubScan A B n key = .unchanged) ∧
      ((∃ q ∈ B, A.lookup q.1 = none) → frsSubScan A B n key = .unchanged) ∧
      ((∀ q ∈ B, (A.lookup q.1).isSome = true) →
        (2 ≤ n + (unincList A B).length → frsSubScan A B n key = .unchanged) ∧
        (n = 0 → (unincList A B).length = 0 →
          frsSubScan A B n key = .makeEmptyAll) ∧
        (n = 1 → (unincList A B).length = 0 →
          frsSubScan A B n key = .subtractAt key) ∧
        (n = 0 → ∀ p, unincList A B = [p] →
          frsSubScan A B n key = .subtractAt p.1)) := by
  intro A
  induction A with
  | nil =>
      intro B n key _ _
      cases B with
      | nil =>
          refine ⟨?_, ?_, ?_⟩
          · intro h2
            unfold frsSubScan
            rw [if_pos h2]
          · rintro ⟨q, hq, -⟩
            cases hq
          · intro _
            refine ⟨?_, ?_, ?_, ?_⟩
            · intro h2
              rw [unincList_nil_right] at h2
              unfold frsSubScan
              rw [if_pos (by simpa using h2)]
            · intro hn _
              unfold frsSubScan
              rw [if_neg (by omega), if_pos hn]
            · intro hn _
              unfold frsSubScan
              rw [if_neg (by omega), if_neg (by omega)]
            · intro _ p hp
              rw [unincList_nil_right] at hp
              cases hp
      | cons qb Bs =>
          refine ⟨fun _ => rfl, fun _ => rfl, ?_⟩
          intro hsome
          have h3 := hsome qb (List.mem_cons_self _ _)
          simp [List.lookup] at h3
  | cons pa As ih =>
      intro B n key hA hB
      obtain ⟨fa, ra⟩ := pa
      have hAs : List.Chain' (fun p q => p.1 < q.1) As := hA.tail
      cases B with
      | nil =>
          refine ⟨?_, ?_, ?_⟩
          · intro h2
            unfold frsSubScan
            rw [if_pos h2]
          · rintro ⟨q, hq, -⟩
            cases hq
          · intro _
            refine ⟨?_, ?_, ?_, ?_⟩
            · intro h2
              rw [unincList_nil_right] at h2
              unfold frsSubScan
              rw [if_pos (by simpa using h2)]
            · intro hn _
              unfold frsSubScan
              rw [if_neg (by omega), if_pos hn]
            · intro hn _
              unfold frsSubScan
              rw [if_neg (by omega), if_neg (by omega)]
            · intro _ p hp
              rw [unincList_nil_right] at hp
              cases hp
      | cons pb Bs =>
          obtain ⟨fb, rb⟩ := pb
          have hBs : List.Chain' (fun p q => p.1 < q.1) Bs := hB.tail
          by_cases h2n : 2 ≤ n
          · have hu : frsSubScan ((fa, ra) :: As) ((fb, rb) :: Bs) n key =
                .unchanged := by
              unfold frsSubScan
              rw [if_pos h2n]
            refine ⟨fun _ => hu, fun _ => hu, fun _ => ⟨fun _ => hu, ?_, ?_, ?_⟩⟩
            · intro hn _
              exact absurd hn (by omega)
            · intro hn _
              exact absurd hn (by omega)
            · intro hn p _
              exact absurd hn (by omega)
          · rcases lt_trichotomy fa fb with hcmp | hcmp | hcmp
            · -- fa < fb: this map's field is not constrained by the other; skip it
              have hne : fa ≠ fb := ne_of_lt hcmp
              have hscan : frsSubScan ((fa, ra) :: As) ((fb, rb) :: Bs) n key =
                  frsSubScan As ((fb, rb) :: Bs) n key := by
                conv_lhs => unfold frsSubScan
                rw [if_neg h2n, if_neg hne, if_pos hcmp]
              have hlkA : List.lookup fa ((fb, rb) :: Bs) = none := by
                apply lookup_none_of_all_ne
                intro q hq
                rcases List.mem_cons.mp hq with rfl | hq2
                · exact hne
                · exact ne_of_lt (lt_trans hcmp (sortedChain_head_lt hB q hq2))
              have huninc : unincList ((fa, ra) :: As) ((fb, rb) :: Bs) =
                  unincList As ((fb, rb) :: Bs) := unincList_cons_none hlkA
              have htrans : ∀ q ∈ (fb, rb) :: Bs,
                  List.lookup q.1 ((fa, ra) :: As) = List.lookup q.1 As := by
                intro q hq
                apply lookup_cons_ne
                rcases List.mem_cons.mp hq with rfl | hq2
                · exact ne_of_gt hcmp
                · exact ne_of_gt (lt_trans hcmp (sortedChain_head_lt hB q hq2))
              obtain ⟨ih1, ih2, ih3⟩ := ih ((fb, rb) :: Bs) n key hAs hB
              refine ⟨fun h => absurd h h2n, ?_, ?_⟩
              · rintro ⟨q, hq, hqn⟩
                rw [htrans q hq] at hqn
                rw [hscan]
                exact ih2 ⟨q, hq, hqn⟩
              · intro hsome
                have hsome2 : ∀ q ∈ (fb, rb) :: Bs,
                    (List.lookup q.1 As).isSome = true := by
                  intro q hq
                  rw [← htrans q hq]
                  exact hsome q hq
                obtain ⟨j1, j2, j3, j4⟩ := ih3 hsome2
                refine ⟨?_, ?_, ?_, ?_⟩
                · intro hl
                  rw [huninc] at hl
                  rw [hscan]
                  exact j1 hl
                · intro hn hl
                  rw [huninc] at hl
                  rw [hscan]
                  exact j2 hn hl
                · intro hn hl
                  rw [huninc] at hl
                  rw [hscan]
                  exact j3 hn hl
                · intro hn p hp
                  rw [huninc] at hp
                  rw [hscan]
                  exact j4 hn p hp
            · -- fa = fb: shared field
              subst hcmp
              have hlkB : List.lookup fa ((fa, rb) :: Bs) = some rb :=
                lookup_cons_self _ _ _
              have hkeysAs : ∀ q ∈ As, fa < q.1 := sortedChain_head_lt hA
              have hkeysBs : ∀ q ∈ Bs, fa < q.1 := sortedChain_head_lt hB
              have huninc1 : unincList As ((fa, rb) :: Bs) = unincList As Bs :=
                unincList_congr_right fun q hq => ne_of_gt (hkeysAs q hq)
              have htrB : ∀ q ∈ Bs,
                  List.lookup q.1 ((fa, ra) :: As) = List.lookup q.1 As :=
                fun q hq => lookup_cons_ne (ne_of_gt (hkeysBs q hq)) _ _
              have hexiff : (∃ q ∈ (fa, rb) :: Bs,
                    List.lookup q.1 ((fa, ra) :: As) = none) ↔
                  (∃ q ∈ Bs, List.lookup q.1 As = none) := by
                constructor
                · rintro ⟨q, hq, hqn⟩
                  rcases List.mem_cons.mp hq with rfl | hq2
                  · rw [lookup_cons_self] at hqn
                    cases hqn
                  · rw [htrB q hq2] at hqn
                    exact ⟨q, hq2, hqn⟩
                · rintro ⟨q, hq, hqn⟩
                  exact ⟨q, List.mem_cons_of_mem _ hq, by rw [htrB q hq]; exact hqn⟩
              by_cases hle : ra.le rb = true
              · have hscan : frsSubScan ((fa, ra) :: As) ((fa, rb) :: Bs) n key =
                    frsSubScan As Bs n key := by
                  conv_lhs => unfold frsSubScan
                  rw [if_neg h2n, if_pos rfl, if_pos hle]
                have huninc : unincList ((fa, ra) :: As) ((fa, rb) :: Bs) =
                    unincList As Bs := by
                  rw [unincList_cons_some hlkB, if_pos hle, huninc1]
                obtain ⟨ih1, ih2, ih3⟩ := ih Bs n key hAs hBs
                refine ⟨fun h => absurd h h2n, ?_, ?_⟩
                · intro hex
                  rw [hscan]
                  exact ih2 (hexiff.mp hex)
                · intro hsome
                  have hsome2 : ∀ q ∈ Bs, (List.lookup q.1 As).isSome = true := by
                    intro q hq
                    rw [← htrB q hq]
                    exact hsome q (List.mem_cons_of_mem _ hq)
                  obtain ⟨j1, j2, j3, j4⟩ := ih3 hsome2
                  refine ⟨?_, ?_, ?_, ?_⟩
                  · intro hl
                    rw [huninc] at hl
                    rw [hscan]
                    exact j1 hl
                  · intro hn hl
                    rw [huninc] at hl
                    rw [hscan]
                    exact j2 hn hl
                  · intro hn hl
                    rw [huninc] at hl
                    rw [hscan]
                    exact j3 hn hl
                  · intro hn p hp
                    rw [huninc] at hp
                    rw [hscan]
                    exact j4 hn p hp
              · have hscan : frsSubScan ((fa, ra) :: As) ((fa, rb) :: Bs) n key =
                    frsSubScan As Bs (n + 1) fa := by
                  conv_lhs => unfold frsSubScan
                  rw [if_neg h2n, if_pos rfl, if_neg hle]
                have huninc : unincList ((fa, ra) :: As) ((fa, rb) :: Bs) =
                    (fa, ra) :: unincList As Bs := by
                  rw [unincList_cons_some hlkB, if_neg hle, huninc1]
                obtain ⟨ih1, ih2, ih3⟩ := ih Bs (n + 1) fa hAs hBs
                refine ⟨fun h => absurd h h2n, ?_, ?_⟩
                · intro hex
                  rw [hscan]
                  have hex2 := hexiff.mp hex
                  by_cases hn1 : 2 ≤ n + 1
                  · exact ih1 hn1
                  · exact ih2 hex2
                · intro hsome
                  have hsome2 : ∀ q ∈ Bs, (List.lookup q.1 As).isSome = true := by
                    intro q hq
                    rw [← htrB q hq]
                    exact hsome q (List.mem_cons_of_mem _ hq)
                  obtain ⟨j1, j2, j3, j4⟩ := ih3 hsome2
                  refine ⟨?_, ?_, ?_, ?_⟩
                  · intro hl
                    rw [huninc, List.length_cons] at hl
                    rw [hscan]
                    exact j1 (by omega)
                  · intro hn hl
                    rw [huninc, List.length_cons] at hl
                    exact absurd hl (by omega)
                  · intro hn hl
                    rw [huninc, List.length_cons] at hl
                    exact absurd hl (by omega)
                  · intro hn p hp
                    rw [huninc] at hp
                    obtain ⟨hp1, hp2⟩ := List.cons.inj hp
                    rw [hscan, ← hp1]
                    exact j3 (by omega) (by rw [hp2]; rfl)
            · -- fb < fa: the other map constrains a field this map lacks
              have hne : fa ≠ fb := ne_of_gt hcmp
              have hscan : frsSubScan ((fa, ra) :: As) ((fb, rb) :: Bs) n key =
                  .unchanged := by
                unfold frsSubScan
                rw [if_neg h2n, if_neg hne, if_neg (asymm hcmp)]
              have hlk : List.lookup fb ((fa, ra) :: As) = none := by
                apply lookup_none_of_all_ne
                intro q hq
                rcases List.mem_cons.mp hq with rfl | hq2
                · exact ne_of_lt hcmp
                · exact ne_of_lt (lt_trans hcmp (sortedChain_head_lt hA q hq2))
              refine ⟨fun _ => hscan, fun _ => hscan, ?_⟩
              intro hsome
              refine absurd (hsome (fb, rb) (List.mem_cons_self _ _)) ?_
              rw [hlk]
              simp

/-- C2: on sorted maps, FieldRangeSet::operator-= follows the claimed case
analysis: a field of the other set absent here means no change; otherwise,
with the shared fields failing the subset test counted as unincluded, two or
more of them mean no change, zero of them empty every range of this set, and
exactly one has only that field's range subtracted (with the other's query
buffers appended); and the result always contains every document in this set
that is not in the other. -/
theorem claim_C2 (a b : FieldRangeSet)
    (ha : rangesSorted a.ranges) (hb : rangesSorted b.ranges) :
    ((∃ q ∈ b.ranges, a.ranges.lookup q.1 = none) → a.sub b = a) ∧
    ((∀ q ∈ b.ranges, (a.ranges.lookup q.1).isSome = true) →
      (2 ≤ (unincList a.ranges b.ranges).length → a.sub b = a) ∧
      ((unincList a.ranges b.ranges).length = 0 →
        a.sub b = { a with ranges := a.ranges.map fun p => (p.1, p.2.makeEmpty) }) ∧
      (∀ p, unincList a.ranges b.ranges = [p] →
        a.sub b = { a with
          ranges := a.ranges.map fun q =>
            if q.1 = p.1 then
              (q.1, q.2.sub ((b.ranges.lookup q.1).getD trivialRange))
            else q,
          queries := a.queries ++ b.queries })) ∧
    (∀ d : String → BSONElement, FieldRangeSet.memDoc d a →
      ¬ FieldRangeSet.memDoc d b → FieldRangeSet.memDoc d (a.sub b)) := by
  have hac : List.Chain' (fun p q => p.1 < q.1) a.ranges := (sortedKeysB_iff _).mp ha
  have hbc : List.Chain' (fun p q => p.1 < q.1) b.ranges := (sortedKeysB_iff _).mp hb
  obtain ⟨s1, s2, s3⟩ := frsSubScan_spec a.ranges b.ranges 0 "" hac hbc
  have hsubU : frsSubScan a.ranges b.ranges 0 "" = .unchanged → a.sub b = a := by
    intro h
    unfold FieldRangeSet.sub
    rw [h]
  have hsubM : frsSubScan a.ranges b.ranges 0 "" = .makeEmptyAll →
      a.sub b = { a with ranges := a.ranges.map fun p => (p.1, p.2.makeEmpty) } := by
    intro h
    unfold FieldRangeSet.sub
    rw [h]
  have hsubS : ∀ k, frsSubScan a.ranges b.ranges 0 "" = .subtractAt k →
      a.sub b = { a with
        ranges := a.ranges.map fun q =>
          if q.1 = k then (q.1, q.2.sub ((b.ranges.lookup q.1).getD trivialRange))
          else q,
        queries := a.queries ++ b.queries } := by
    intro k h
    unfold FieldRangeSet.sub
    rw [h]
  refine ⟨?_, ?_, ?_⟩
  · intro hex
    exact hsubU (s2 hex)
  · intro hsome
    obtain ⟨j1, j2, j3, j4⟩ := s3 hsome
    refine ⟨?_, ?_, ?_⟩
    · intro hl
      exact hsubU (j1 (by omega))
    · intro hl
      exact hsubM (j2 rfl hl)
    · intro p hp
      exact hsubS p.1 (j4 rfl p hp)
  · intro d hda hdb
    by_cases hex : ∃ q ∈ b.ranges, a.ranges.lookup q.1 = none
    · rw [hsubU (s2 hex)]
      exact hda
    · push_neg at hex
      have hsome : ∀ q ∈ b.ranges, (a.ranges.lookup q.1).isSome = true := by
        intro q hq
        cases hl : a.ranges.lookup q.1 with
        | none => exact absurd hl (hex q hq)
        | some r => rfl
      obtain ⟨j1, j2, j3, j4⟩ := s3 hsome
      cases hlen : (unincList a.ranges b.ranges).length with
      | zero =>
          exfalso
          apply hdb
          intro q hq
          obtain ⟨rq, hrq⟩ : ∃ rq, a.ranges.lookup q.1 = some rq := by
            cases hl : a.ranges.lookup q.1 with
            | none => exact absurd hl (hex q hq)
            | some r => exact ⟨r, rfl⟩
          have hmemA : (q.1, rq) ∈ a.ranges := lookup_some_mem hrq
          have hfil : unincList a.ranges b.ranges = [] := List.length_eq_zero.mp hlen
          have hnotin : (q.1, rq) ∉ unincList a.ranges b.ranges := by
            rw [hfil]
            simp
          have hqmem : (q.1, q.2) ∈ b.ranges := by
            rw [Prod.mk.eta]
            exact hq
          have hlkb : b.ranges.lookup q.1 = some q.2 := lookup_eq_some_of_mem hbc hqmem
          have hle := unincList_pred_not_mem hmemA hnotin hlkb
          exact frLe_sound hle (hda (q.1, rq) hmemA)
      | succ m =>
          cases m with
          | zero =>
              obtain ⟨p, hp⟩ := List.length_eq_one.mp hlen
              rw [hsubS p.1 (j4 rfl p hp)]
              intro q hq
              have hq2 : q ∈ a.ranges.map fun q =>
                  if q.1 = p.1 then
                    (q.1, q.2.sub ((b.ranges.lookup q.1).getD trivialRange))
                  else q := hq
              rw [List.mem_map] at hq2
              obtain ⟨p0, hp0, rfl⟩ := hq2
              have hpin : p ∈ unincList a.ranges b.ranges := by
                rw [hp]
                exact List.mem_cons_self _ _
              obtain ⟨hpA, rbp, hrbp, hple⟩ := unincList_pred_mem hpin
              by_cases hk : p0.1 = p.1
              · rw [if_pos hk]
                have e1 : (p0.1, p0.2) ∈ a.ranges := by
                  rw [Prod.mk.eta]
                  exact hp0
                rw [hk] at e1
                have e2 : (p.1, p.2) ∈ a.ranges := by
                  rw [Prod.mk.eta]
                  exact hpA
                have hRB : (b.ranges.lookup p0.1).getD trivialRange = rbp := by
                  rw [hk, hrbp]
                  rfl
                have hmem : p0.2.mem (d p0.1) := hda p0 hp0
                by_cases hmb : rbp.mem (d p0.1)
                · exfalso
                  apply hdb
                  intro q2 hq2b
                  by_cases hk2 : q2.1 = p.1
                  · have e3 : (q2.1, q2.2) ∈ b.ranges := by
                      rw [Prod.mk.eta]
                      exact hq2b
                    rw [hk2] at e3
                    have e4 : (p.1, rbp) ∈ b.ranges := lookup_some_mem hrbp
                    have he5 : q2.2 = rbp := key_unique hbc e3 e4
                    rw [he5, hk2, ← hk]
                    exact hmb
                  · obtain ⟨ra2, hra2⟩ : ∃ ra2, a.ranges.lookup q2.1 = some ra2 := by
                      cases hl : a.ranges.lookup q2.1 with
                      | none => exact absurd hl (hex q2 hq2b)
                      | some r => exact ⟨r, rfl⟩
                    have hmA2 : (q2.1, ra2) ∈ a.ranges := lookup_some_mem hra2
                    have hq2mem : (q2.1, q2.2) ∈ b.ranges := by
                      rw [Prod.mk.eta]
                      exact hq2b
                    have hlkb2 : b.ranges.lookup q2.1 = some q2.2 :=
                      lookup_eq_some_of_mem hbc hq2mem
                    have hnotin2 : (q2.1, ra2) ∉ unincList a.ranges b.ranges := by
                      rw [hp]
                      intro hcontra
                      rw [List.mem_singleton] at hcontra
                      apply hk2
                      rw [← hcontra]
                    have hle2 := unincList_pred_not_mem hmA2 hnotin2 hlkb2
                    exact frLe_sound hle2 (hda (q2.1, ra2) hmA2)
                · rw [hRB]
                  exact frSub_superset hmem hmb
              · rw [if_neg hk]
                exact hda p0 hp0
          | succ m2 =>
              rw [hsubU (j1 (by omega))]
              exact hda

/-- C2 witness: a one-field set fully contained in the other is emptied by
the subtraction. -/
theorem claim_C2_witness :
    FieldRangeSet.sub
        ⟨[("x", ⟨[⟨⟨.intV 1, true⟩, ⟨.intV 5, true⟩, -1⟩], [], ""⟩)], "t.c", []⟩
        ⟨[("x", ⟨[⟨⟨.intV 0, true⟩, ⟨.intV 9, true⟩, -1⟩], [], ""⟩)], "t.c", []⟩ =
      ⟨[("x", ⟨[], [], ""⟩)], "t.c", []⟩ := by
  have h := claim_C2
    ⟨[("x", ⟨[⟨⟨.intV 1, true⟩, ⟨.intV 5, true⟩, -1⟩], [], ""⟩)], "t.c", []⟩
    ⟨[("x", ⟨[⟨⟨.intV 0, true⟩, ⟨.intV 9, true⟩, -1⟩], [], ""⟩)], "t.c", []⟩
    (by rfl) (by rfl)
  have h2 := (h.2.1 (by decide)).2.1 (by decide)
  rw [h2]
  decide
